import Mathlib

/-!
Shallow embedding of `search_log.go` (package sysutil): log levels, the
timestamp/line codec, the backward chunk scanner `readLastLines`, the file
resolver's filter/sort/prune phase, and the filtering `logIterator`.

Conventions used throughout:
* Go `int64` values (timestamps) are modelled as `Int`; byte offsets and
  sizes, which are always non-negative here, as `Nat`.
* file contents are byte strings, modelled as `List Char` (one `Char` per
  byte; all inputs of interest are ASCII).
* fallible Go functions returning `(T, error)` are modelled with `Option`
  or `Except`.
-/

/-- Model of `pb.LogLevel` from `diagnosticspb` (proto ordinals 0..6). -/
inductive LogLevel where
  | UNKNOWN
  | Debug
  | Info
  | Warn
  | Trace
  | Critical
  | Error
deriving DecidableEq, Repr

/-- Proto ordinal of a level; `1 << item.Level` in Go shifts by this value. -/
def LogLevel.toNat : LogLevel → Nat
  | .UNKNOWN => 0
  | .Debug => 1
  | .Info => 2
  | .Warn => 3
  | .Trace => 4
  | .Critical => 5
  | .Error => 6

/-- Model of `pb.LogMessage` (fields `Time`, `Level`, `Message`). -/
structure LogMessage where
  Time : Int
  Level : LogLevel
  Message : String
deriving DecidableEq, Repr

/-- Model of `ParseLogLevel` (search_log.go:316-333): a `switch` on the exact
strings `"debug"/"DEBUG"`, ..., defaulting to `UNKNOWN`. -/
def ParseLogLevel (s : String) : LogLevel :=
  match s with
  | "debug" | "DEBUG" => .Debug
  | "info" | "INFO" => .Info
  | "warn" | "WARN" => .Warn
  | "trace" | "TRACE" => .Trace
  | "critical" | "CRITICAL" => .Critical
  | "error" | "ERROR" => .Error
  | _ => .UNKNOWN

/-- `TimeStampLayout = "2006/01/02 15:04:05.000 -07:00"` has 30 bytes. -/
def timeStampLayoutLen : Nat := 30

/-- Value of a decimal digit character. -/
def digitVal (c : Char) : Option Nat :=
  if '0' ≤ c ∧ c ≤ '9' then some (c.toNat - 48) else none

/-- Two fixed decimal digits, as Go `getnum(value, fixed present)` does. -/
def num2 (a b : Char) : Option Nat := do
  let x ← digitVal a
  let y ← digitVal b
  pure (10 * x + y)

/-- Gregorian leap year, as in Go `time`. -/
def isLeap (y : Int) : Bool :=
  (y % 4 == 0 && y % 100 != 0) || y % 400 == 0

/-- Days in a month of the proleptic Gregorian calendar. -/
def daysInMonth (y m : Int) : Int :=
  if m = 2 then (if isLeap y then 29 else 28)
  else if m = 4 ∨ m = 6 ∨ m = 9 ∨ m = 11 then 30
  else 31

/-- Days since the Unix epoch of a civil date (proleptic Gregorian);
the standard era-based algorithm, matching Go's `Date.Unix` arithmetic. -/
def daysFromCivil (y m d : Int) : Int :=
  let yy := if m ≤ 2 then y - 1 else y
  let era := (if 0 ≤ yy then yy else yy - 399) / 400
  let yoe := yy - era * 400
  let mp := if 2 < m then m - 3 else m + 9
  let doy := (153 * mp + 2) / 5 + d - 1
  let doe := yoe * 365 + yoe / 4 - yoe / 100 + doy
  era * 146097 + doe - 719468

/-- Model of `parseTimeStamp` (search_log.go:376-382): Go
`time.Parse("2006/01/02 15:04:05.000 -07:00", s)` on the fixed-width unified
layout, then `t.UnixNano() / int64(time.Millisecond)`.  The digit structure,
separators and the field range checks (month 1-12, day within month, hour
0-23, minute/second 0-59) follow `time.Parse`; like Go, the numeric zone
digits are not range-checked.  Returns milliseconds since the Unix epoch. -/
def parseTimeStamp (cs : List Char) : Option Int :=
  if cs.length ≠ timeStampLayoutLen then none else
  let c := fun i => cs.getD i ' '
  match num2 (c 0) (c 1), num2 (c 2) (c 3), num2 (c 5) (c 6), num2 (c 8) (c 9),
        num2 (c 11) (c 12), num2 (c 14) (c 15), num2 (c 17) (c 18),
        digitVal (c 20), num2 (c 21) (c 22), num2 (c 25) (c 26), num2 (c 28) (c 29) with
  | some y1, some y2, some mo, some d, some h, some mi, some s,
    some ms1, some ms2, some zh, some zm =>
    if c 4 = '/' ∧ c 7 = '/' ∧ c 10 = ' ' ∧ c 13 = ':' ∧ c 16 = ':' ∧ c 19 = '.'
        ∧ c 23 = ' ' ∧ (c 24 = '+' ∨ c 24 = '-') ∧ c 27 = ':' then
      let y : Int := y1 * 100 + y2
      let ms : Int := ms1 * 100 + ms2
      if 1 ≤ mo ∧ mo ≤ 12 ∧ 1 ≤ d ∧ (d : Int) ≤ daysInMonth y mo
          ∧ h ≤ 23 ∧ mi ≤ 59 ∧ s ≤ 59 then
        let off : Int := zh * 3600 + zm * 60
        let off : Int := if c 24 = '-' then -off else off
        some ((daysFromCivil y mo d * 86400 + h * 3600 + mi * 60 + s - off) * 1000 + ms)
      else none
    else none
  | _, _, _, _, _, _, _, _, _, _, _ => none

/-- Index of the first occurrence of a character; Go `strings.Index` for a
one-byte needle, with `-1` modelled as `none`. -/
def idxOfChar (cs : List Char) (target : Char) : Option Nat :=
  match cs with
  | [] => none
  | c :: rest => if c = target then some 0 else (idxOfChar rest target).map (· + 1)

/-- Go slice expression `s[a:b]`. -/
def goSlice (cs : List Char) (a b : Nat) : List Char :=
  (cs.drop a).take (b - a)

/-- Character class of Go `strings.TrimSpace` (ASCII part). -/
def isGoSpace (c : Char) : Bool :=
  c = ' ' || c = '\t' || c = '\n' || c = '\x0B' || c = '\x0C' || c = '\r'

/-- Go `strings.TrimSpace` on byte lists. -/
def trimSpace (cs : List Char) : List Char :=
  ((cs.dropWhile isGoSpace).reverse.dropWhile isGoSpace).reverse

/-- Go `strings.TrimSpace` on strings. -/
def trimString (s : String) : String :=
  String.mk (trimSpace s.data)

/-- Model of `parseLogItem` (search_log.go:344-366): locate the first
`[timestamp]` and, after it, the first `[severity]` bracket pair; the
trimmed remainder is the message.  Severity parsing is total, timestamp
parsing is not. -/
def parseLogItem (s : String) : Option LogMessage :=
  let cs := s.data
  match idxOfChar cs '[', idxOfChar cs ']' with
  | some timeLeftBound, some timeRightBound =>
    if timeRightBound < timeLeftBound then none else
    match parseTimeStamp (goSlice cs (timeLeftBound + 1) timeRightBound) with
    | none => none
    | some time =>
      let rest := cs.drop (timeRightBound + 1)
      match idxOfChar rest '[', idxOfChar rest ']' with
      | some levelLeftBound, some levelRightBound =>
        if levelRightBound < levelLeftBound then none else
        let level := ParseLogLevel (String.mk (goSlice cs
          (timeRightBound + 1 + levelLeftBound + 1) (timeRightBound + 1 + levelRightBound)))
        some ⟨time, level, String.mk (trimSpace (cs.drop (timeRightBound + levelRightBound + 2)))⟩
      | _, _ => none
  | _, _ => none

theorem parseLogItem_sample : parseLogItem "[2019/08/26 06:19:13.011 -04:00] [INFO] hello" =
    some ⟨1566814753011, .Info, "hello"⟩ := by decide

theorem parseLogItem_sample_fail : parseLogItem "stack trace continuation" = none := by decide

/-- Model of `logFile` (search_log.go:35-39): the probed begin/end timestamps
of a candidate file.  The `*os.File` handle and the `compressed` flag carry no
timing information and play no role in the resolver's filter/sort/prune
phase, so they are not modelled. -/
structure logFile where
  begin : Int
  end_ : Int
deriving DecidableEq, Repr

/-- The window test of `resolveFiles` (search_log.go:133): a candidate is
skipped iff `beginTime > lastItemTime || endTime < firstItemTime`. -/
def keepInWindow (beginTime endTime : Int) (f : logFile) : Bool :=
  !(beginTime > f.end_ || endTime < f.begin)

/-- The sort of `resolveFiles` (search_log.go:159-161): `sort.Slice` with
`logFiles[i].begin < logFiles[j].begin`.  `sort.Slice` is an arbitrary
comparison sort; on the begin-distinct inputs all claims quantify over, every
comparison sort produces this same list. -/
def sortByBegin (fs : List logFile) : List logFile :=
  fs.mergeSort fun a b => a.begin ≤ b.begin

/-- The prune loop of `resolveFiles` (search_log.go:165-177): walking from the
second element while `begin < beginTime` holds, the running index `idx` ends
at the last such element, and `logFiles[idx:]` is returned. -/
def pruneFiles (beginTime : Int) : List logFile → List logFile
  | [] => []
  | [f] => [f]
  | f :: g :: rest =>
    if g.begin < beginTime then pruneFiles beginTime (g :: rest) else f :: g :: rest

/-- The pure phase of `resolveFiles` after per-file probing
(search_log.go:133-177): window filter, sort by begin time, prune. -/
def resolveFilesCore (beginTime endTime : Int) (candidates : List logFile) : List logFile :=
  pruneFiles beginTime (sortByBegin (candidates.filter (keepInWindow beginTime endTime)))

/-- Stated from the spec's words for claim C1 (the resolution contract):
keep exactly the files with `endTime ≥ x` and `begin ≤ y`; among those with
`begin < x` keep only the one with the greatest begin time (the last one, in
a sorted list), plus every file with `begin ≥ x`. -/
def resolveFilesClaimed (x y : Int) (fs : List logFile) : List logFile :=
  let kept := fs.filter fun f => decide (x ≤ f.end_) && decide (f.begin ≤ y)
  let before := kept.filter fun f => decide (f.begin < x)
  let after := kept.filter fun f => decide (x ≤ f.begin)
  (match before.getLast? with
   | none => []
   | some f => [f]) ++ after

/-- Go error values that matter to the claims. -/
inductive GoErr where
  | cancelled
  | eofErr
  | notValidLog
deriving DecidableEq, Repr

/-- Newline test of the backward scan (search_log.go:298): byte 10 or 13. -/
def isLineTerm (c : Char) : Bool := c == '\n' || c == '\r'

/-- The boundary scan of `readLastLines` (search_log.go:292-302): walk the
freshly read chunk looking for the first line terminator immediately
followed by a non-terminator; the list argument is the suffix of the chunk
starting at index `i` (so the loop guard `i < len(chars)-1` is the
two-element pattern), and `linesLen` is the length of the whole accumulated
buffer, used by the loop's early-break guard. -/
def scanChunkGo (linesLen : Nat) : Nat → List Char → Nat
  | i, c1 :: c2 :: rest =>
    if linesLen - 1 ≤ i then 0
    else if isLineTerm c1 ∧ ¬ isLineTerm c2 then i + 1
    else scanChunkGo linesLen (i + 1) (c2 :: rest)
  | _, _ => 0

/-- The boundary scan of `readLastLines` started at index 0; the result is
`firstNonNewlinePos` (0 when no boundary was found). -/
def scanChunk (chars : List Char) (linesLen : Nat) : Nat :=
  scanChunkGo linesLen 0 chars

/-- `maxReadCacheSize = 1024 * 1024 * 16` (search_log.go:254). -/
def maxReadCacheSize : Nat := 1024 * 1024 * 16

/-- One round of the chunk-size update in `readLastLines`
(search_log.go:271-277): double, cap at `maxReadCacheSize`, clamp to the
distance left to offset 0. -/
def nextSize (size cursor : Nat) : Nat :=
  let size1 := size * 2
  let size2 := if maxReadCacheSize < size1 then maxReadCacheSize else size1
  if cursor < size2 then cursor else size2

theorem nextSize_pos {size cursor : Nat} (hs : 0 < size) (hc : 0 < cursor) :
    0 < nextSize size cursor := by
  simp only [nextSize, maxReadCacheSize]
  split_ifs <;> omega

/-- The backward-reading loop of `readLastLines` (search_log.go:263-309).
`readAt off size` models `file.Seek(off, io.SeekStart)` followed by
`file.Read(make([]byte, size))`; `none` is a failing Seek or Read, on which
the code returns `(nil, 0, ctx.Err())`.  The second component is the ghost
trace of chunk sizes actually read, one per round, needed to state claim C5.
The error value `Option GoErr` is the value of `ctx.Err()`: `none` when the
context is not cancelled. -/
def readLastLoop (readAt : Nat → Nat → Option (List Char)) (ctxDone : Bool)
    (cursor size : Nat) (hsize : 0 < size) (acc : List Char) :
    Except (Option GoErr) (List Char × Nat) × List Nat :=
  if hc : cursor = 0 then (.ok (acc, 0), [])
  else
    let size3 := nextSize size cursor
    let cursor1 := cursor - size3
    match readAt cursor1 size3 with
    | none => (.error (if ctxDone then some .cancelled else none), [size3])
    | some chars =>
      let acc1 := chars ++ acc
      let pos := scanChunk chars acc1.length
      if 0 < pos then (.ok (acc1, pos), [size3])
      else if ctxDone then (.error (some .cancelled), [size3])
      else
        let r := readLastLoop readAt ctxDone cursor1 size3
          (nextSize_pos hsize (Nat.pos_of_ne_zero hc)) acc1
        (r.1, size3 :: r.2)
termination_by cursor
decreasing_by
  exact Nat.sub_lt (Nat.pos_of_ne_zero hc) (nextSize_pos hsize (Nat.pos_of_ne_zero hc))

/-- Seek+Read on an in-memory regular file: reading `size` bytes at offset
`off` never fails and yields that slice of the content. -/
def fileReadAt (content : List Char) : Nat → Nat → Option (List Char) :=
  fun off size => some ((content.drop off).take size)

/-- Go `strings.Split(s, "\x5cn")`: all fields, including empty ones. -/
def splitNl : List Char → List (List Char)
  | [] => [[]]
  | c :: rest =>
    if c = '\n' then [] :: splitNl rest
    else
      match splitNl rest with
      | f :: fs => (c :: f) :: fs
      | [] => [[c]]

/-- Go `strings.ReplaceAll(s, "\x5cr\x5cn", "\x5cn")`, left to right. -/
def replCrLf : List Char → List Char
  | [] => []
  | [c] => [c]
  | c1 :: c2 :: rest =>
    if c1 = '\r' ∧ c2 = '\n' then '\n' :: replCrLf rest
    else c1 :: replCrLf (c2 :: rest)

/-- Model of `readLastLines` (search_log.go:258-312): run the backward loop
from `endCursor` with initial size 256, then split the clean tail
`lines[firstNonNewlinePos:]` on newlines (normalising CRLF) and report its
byte length.  The error component models the returned `error`. -/
def readLastLines (ctxDone : Bool) (readAt : Nat → Nat → Option (List Char))
    (endCursor : Nat) : List String × Nat × Option GoErr :=
  match (readLastLoop readAt ctxDone endCursor 256 (by norm_num) []).1 with
  | .error e => ([], 0, e)
  | .ok (lines, pos) =>
    let finalStr := lines.drop pos
    ((splitNl (replCrLf finalStr)).map String.mk, finalStr.length, none)

/-- The chunk sizes `readLastLines` reads, in round order (ghost trace). -/
def readLastLinesTrace (ctxDone : Bool) (readAt : Nat → Nat → Option (List Char))
    (endCursor : Nat) : List Nat :=
  (readLastLoop readAt ctxDone endCursor 256 (by norm_num) []).2

/-- The backward parse scan of `readLastValidLog` (search_log.go:225-230):
first parse success walking the line list from its end. -/
def lastParsedBackward (lines : List String) : Option LogMessage :=
  match lines with
  | [] => none
  | l :: rest =>
    match lastParsedBackward rest with
    | some item => some item
    | none => parseLogItem l

theorem readLastLines_zero (ctxDone : Bool) (readAt : Nat → Nat → Option (List Char)) :
    readLastLines ctxDone readAt 0 = ([""], 0, none) := by
  simp [readLastLines, readLastLoop, splitNl, replCrLf]

/-- The retry loop of `readLastValidLog` (search_log.go:215-235): `r.1` is
the returned line list, `r.2.1` the consumed byte count, `r.2.2` the error. -/
def readLastValidLogLoop (ctxDone : Bool) (readAt : Nat → Nat → Option (List Char))
    (endCursor tried tryLines : Nat) : Except GoErr LogMessage :=
  let r := readLastLines ctxDone readAt endCursor
  match r.2.2 with
  | some e => .error e
  | none =>
    if hb : r.2.1 = 0 then .error .notValidLog
    else
      match lastParsedBackward r.1 with
      | some item => .ok item
      | none =>
        if tryLines ≤ tried + r.1.length then .error .notValidLog
        else readLastValidLogLoop ctxDone readAt (endCursor - r.2.1)
          (tried + r.1.length) tryLines
termination_by endCursor
decreasing_by
  refine Nat.sub_lt ?_ (Nat.pos_of_ne_zero hb)
  rcases Nat.eq_zero_or_pos endCursor with h0 | h0
  · subst h0
    unfold r at hb
    rw [readLastLines_zero] at hb
    exact absurd rfl hb
  · exact h0

/-- Model of `readLastValidLog` (search_log.go:211-237), entered at the
file's size. -/
def readLastValidLog (ctxDone : Bool) (readAt : Nat → Nat → Option (List Char))
    (fileSize tryLines : Nat) : Except GoErr LogMessage :=
  readLastValidLogLoop ctxDone readAt fileSize 0 tryLines

/-- The loop of `readFirstValidLog` (search_log.go:189-209); the buffered
reader is modelled as the list of lines `readLine` would deliver, EOF after
the last one. -/
def readFirstValidLogLoop (ctxDone : Bool) : List String → Nat → Nat → Except GoErr LogMessage
  | [], _, _ => .error .eofErr
  | line :: rest, tried, tryLines =>
    match parseLogItem line with
    | some item => .ok item
    | none =>
      if tryLines ≤ tried + 1 then .error .notValidLog
      else if ctxDone then .error .cancelled
      else readFirstValidLogLoop ctxDone rest (tried + 1) tryLines

/-- Model of `readFirstValidLog` (search_log.go:189-209). -/
def readFirstValidLog (ctxDone : Bool) (lines : List String) (tryLines : Nat) :
    Except GoErr LogMessage :=
  readFirstValidLogLoop ctxDone lines 0 tryLines

/-- The probe-and-window decision of `resolveFiles`'s `walkFn` for an
uncompressed candidate file that opened successfully (search_log.go:107-143):
`none` means the file joins `skipFiles` (silently skipped), `some` carries
the probed span appended to `logFiles`.  The position reset (line 128) is a
pure Seek on a regular file and cannot fail in this model. -/
def walkFnDecision (ctxDone : Bool) (readerLines : List String)
    (readAt : Nat → Nat → Option (List Char)) (fileSize : Nat)
    (beginTime endTime : Int) : Option logFile :=
  match readFirstValidLog ctxDone readerLines 10 with
  | .error _ => none
  | .ok firstItem =>
    match readLastValidLog ctxDone readAt fileSize 10 with
    | .error _ => none
    | .ok lastItem =>
      if beginTime > lastItem.Time ∨ endTime < firstItem.Time then none
      else some ⟨firstItem.Time, lastItem.Time⟩

/-- Drop one trailing carriage return, as `bufio.Reader.ReadLine` does on a
CRLF-terminated line. -/
def stripCr (cs : List Char) : List Char :=
  match cs.getLast? with
  | some '\r' => cs.dropLast
  | _ => cs

/-- Accumulating loop behind `bufioLines`. -/
def bufioLinesGo (acc : List Char) : List Char → List String
  | [] => if acc.isEmpty then [] else [String.mk acc]
  | c :: rest =>
    if c = '\n' then String.mk (stripCr acc) :: bufioLinesGo [] rest
    else bufioLinesGo (acc ++ [c]) rest

/-- The sequence of lines repeated `readLine` (search_log.go:240-252) yields
when reading a file forward: `bufio.Reader.ReadLine` terminates lines at LF,
strips one CR directly before the LF, and returns a final unterminated
fragment verbatim (then EOF). -/
def bufioLines (content : List Char) : List String := bufioLinesGo [] content

/-- Model of `logIterator` (search_log.go:387-399).  The Go pair
(`pending`, `fileIndex`) — the resolved list plus the index of the file being
read — is represented by `reader` (the unread lines of the current file, or
`none` before the first call) and `pending` (the files after it, each as the
line list its reader delivers); `patterns` are abstract message predicates
standing for the compiled regexps, and `levelFlag` is the int64 severity
mask, non-negative for every mask built from level bits, hence a `Nat`. -/
structure logIterator where
  begin : Int
  end_ : Int
  levelFlag : Nat
  patterns : List (String → Bool)
  reader : Option (List String)
  pending : List (List String)
  preLog : Option LogMessage

/-- The parse-or-synthesize step of `logIterator.next` (search_log.go:453-467):
a parsed line becomes the entry and the new `preLog`; an unparsable line
after a previous entry becomes a continuation entry carrying the previous
time and level with the trimmed line as message, and `preLog` is unchanged;
an unparsable line before any entry is dropped (`none`). -/
def continuationStep (line : String) (preLog : Option LogMessage) :
    Option (LogMessage × Option LogMessage) :=
  match parseLogItem line, preLog with
  | some item, _ => some (item, some item)
  | none, some pre => some (⟨pre.Time, pre.Level, line⟩, preLog)
  | none, none => none

/-- The main loop of `logIterator.next` (search_log.go:432-487) over the
current reader, the files not yet opened, and `preLog`.  On success it
returns the entry with the updated reader, pending list and `preLog`. -/
def nextLoop (beginTime endTime : Int) (levelFlag : Nat) (patterns : List (String → Bool))
    (ctxDone : Bool) :
    List String → List (List String) → Option LogMessage →
    Except GoErr (LogMessage × List String × List (List String) × Option LogMessage)
  | reader, pending, preLog =>
    if ctxDone then .error .cancelled
    else
      match reader with
      | [] =>
        match pending with
        | [] => .error .eofErr
        | f :: fs => nextLoop beginTime endTime levelFlag patterns ctxDone f fs preLog
      | line :: rest =>
        let t := trimString line
        if preLog.isNone ∧ t.length < timeStampLayoutLen then
          nextLoop beginTime endTime levelFlag patterns ctxDone rest pending preLog
        else
          match continuationStep t preLog with
          | none => nextLoop beginTime endTime levelFlag patterns ctxDone rest pending preLog
          | some (item, newPre) =>
            if endTime < item.Time then .error .eofErr
            else if item.Time < beginTime then
              nextLoop beginTime endTime levelFlag patterns ctxDone rest pending newPre
            else if 0 < item.Level.toNat ∧ levelFlag ≠ 0
                ∧ levelFlag &&& (1 <<< item.Level.toNat) = 0 then
              nextLoop beginTime endTime levelFlag patterns ctxDone rest pending newPre
            else if 0 < patterns.length ∧ patterns.any (fun p => ! p item.Message) then
              nextLoop beginTime endTime levelFlag patterns ctxDone rest pending newPre
            else .ok (item, rest, pending, newPre)
termination_by reader pending _ => (pending.length, reader.length)

/-- Model of `logIterator.next` (search_log.go:421-487); `ctxDone` is whether
the cancellation token has fired.  A `nil` reader with empty `pending`
returns EOF at once; a `nil` reader otherwise opens the first pending file
before entering the loop. -/
def logIterator.next (iter : logIterator) (ctxDone : Bool) :
    Except GoErr (LogMessage × logIterator) :=
  match iter.reader with
  | none =>
    match iter.pending with
    | [] => .error .eofErr
    | f :: fs =>
      (nextLoop iter.begin iter.end_ iter.levelFlag iter.patterns ctxDone f fs iter.preLog).map
        fun r => (r.1, { iter with reader := some r.2.1, pending := r.2.2.1, preLog := r.2.2.2 })
  | some rd =>
    (nextLoop iter.begin iter.end_ iter.levelFlag iter.patterns ctxDone rd iter.pending iter.preLog).map
      fun r => (r.1, { iter with reader := some r.2.1, pending := r.2.2.1, preLog := r.2.2.2 })

/-! Step equations for the iterator loop. -/

theorem nextLoop_ctxDone (b e : Int) (flag : Nat) (pats : List (String → Bool))
    (rd : List String) (pd : List (List String)) (pre : Option LogMessage) :
    nextLoop b e flag pats true rd pd pre = .error .cancelled := by
  rw [nextLoop.eq_def]
  simp

theorem nextLoop_endOfFiles (b e : Int) (flag : Nat) (pats : List (String → Bool))
    (pre : Option LogMessage) :
    nextLoop b e flag pats false [] [] pre = .error .eofErr := by
  rw [nextLoop]
  simp

theorem nextLoop_advanceFile (b e : Int) (flag : Nat) (pats : List (String → Bool))
    (f : List String) (fs : List (List String)) (pre : Option LogMessage) :
    nextLoop b e flag pats false [] (f :: fs) pre = nextLoop b e flag pats false f fs pre := by
  rw [nextLoop]
  simp

theorem nextLoop_consLine (b e : Int) (flag : Nat) (pats : List (String → Bool))
    (line : String) (rest : List String) (pd : List (List String)) (pre : Option LogMessage) :
    nextLoop b e flag pats false (line :: rest) pd pre =
      (if pre.isNone ∧ (trimString line).length < timeStampLayoutLen then
        nextLoop b e flag pats false rest pd pre
      else
        match continuationStep (trimString line) pre with
        | none => nextLoop b e flag pats false rest pd pre
        | some (item, newPre) =>
          if e < item.Time then .error .eofErr
          else if item.Time < b then nextLoop b e flag pats false rest pd newPre
          else if 0 < item.Level.toNat ∧ flag ≠ 0 ∧ flag &&& (1 <<< item.Level.toNat) = 0 then
            nextLoop b e flag pats false rest pd newPre
          else if 0 < pats.length ∧ pats.any (fun p => ! p item.Message) then
            nextLoop b e flag pats false rest pd newPre
          else .ok (item, rest, pd, newPre)) := by
  rw [nextLoop]
  simp only [Bool.false_eq_true, if_false]

theorem and_shift_eq_zero_iff (flag n : Nat) :
    (flag &&& (1 <<< n) = 0) ↔ flag.testBit n = false := by
  rw [Nat.one_shiftLeft, Nat.and_two_pow]
  rcases h : flag.testBit n <;> simp

theorem toNat_pos_iff (lv : LogLevel) : 0 < lv.toNat ↔ lv ≠ .UNKNOWN := by
  cases lv <;> simp [LogLevel.toNat]

/-- Claim C4, counterexample: mixed-case severity spellings are not
recognised; `ParseLogLevel "Debug"` yields `UNKNOWN`, not `Debug`. -/
theorem c4_mixed_case_counterexample :
    ParseLogLevel "Debug" = LogLevel.UNKNOWN ∧ ParseLogLevel "Debug" ≠ LogLevel.Debug := by
  decide

/-- Claim C4 (amended): severity parsing is total and case-sensitive.
Exactly the all-lowercase and all-uppercase spellings of debug, info, warn,
trace, critical, error map to their severities; every other string,
including the empty string and mixed-case spellings, yields `UNKNOWN`, and
no input is an error. -/
theorem c4_parse_level_total (s : String)
    (hs : s ∉ (["debug", "DEBUG", "info", "INFO", "warn", "WARN", "trace", "TRACE",
      "critical", "CRITICAL", "error", "ERROR"] : List String)) :
    ParseLogLevel s = LogLevel.UNKNOWN ∧
    ParseLogLevel "debug" = .Debug ∧ ParseLogLevel "DEBUG" = .Debug ∧
    ParseLogLevel "info" = .Info ∧ ParseLogLevel "INFO" = .Info ∧
    ParseLogLevel "warn" = .Warn ∧ ParseLogLevel "WARN" = .Warn ∧
    ParseLogLevel "trace" = .Trace ∧ ParseLogLevel "TRACE" = .Trace ∧
    ParseLogLevel "critical" = .Critical ∧ ParseLogLevel "CRITICAL" = .Critical ∧
    ParseLogLevel "error" = .Error ∧ ParseLogLevel "ERROR" = .Error := by
  refine ⟨?_, by decide, by decide, by decide, by decide, by decide, by decide,
    by decide, by decide, by decide, by decide, by decide, by decide⟩
  unfold ParseLogLevel
  split
  all_goals simp_all

/-- Claim C4, witness: the amended theorem applied at "Debug". -/
theorem c4_parse_level_total_witness :
    ParseLogLevel "Debug" = LogLevel.UNKNOWN ∧ ParseLogLevel "warn" = .Warn :=
  ⟨(c4_parse_level_total "Debug" (by decide)).1, (c4_parse_level_total "Debug" (by decide)).2.2.2.2.2.1⟩

/-- Claim C7, counterexample: with an empty resolved file list the very first
call of `next` returns `io.EOF`, not the cancellation error, even though the
token has already fired — the empty-pending check precedes the context
check. -/
theorem c7_empty_list_counterexample :
    logIterator.next ⟨0, 0, 0, [], none, [], none⟩ true = .error .eofErr ∧
    GoErr.eofErr ≠ GoErr.cancelled := by
  exact ⟨rfl, by decide⟩

/-- Claim C7 (amended): if the cancellation token has fired before the first
call to `next`, then for every nonempty resolved file list that first call
fails with the cancellation error and returns no entry; for the empty list it
instead reports end-of-stream. -/
theorem c7_cancelled_before_first_next (b e : Int) (flag : Nat)
    (pats : List (String → Bool)) (f : List String) (fs : List (List String))
    (pre : Option LogMessage) :
    logIterator.next ⟨b, e, flag, pats, none, f :: fs, pre⟩ true = .error .cancelled ∧
    logIterator.next ⟨b, e, flag, pats, none, [], pre⟩ true = .error .eofErr := by
  constructor
  · show (nextLoop b e flag pats true f fs pre).map _ = _
    rw [nextLoop_ctxDone]
    rfl
  · rfl

theorem continuationStep_inv {t : String} {pre : Option LogMessage} {item : LogMessage}
    {newPre : Option LogMessage} (h : continuationStep t pre = some (item, newPre)) :
    (parseLogItem t = some item ∧ newPre = some item) ∨
    (parseLogItem t = none ∧ ∃ p, pre = some p ∧ newPre = pre ∧ item = ⟨p.Time, p.Level, t⟩) := by
  unfold continuationStep at h
  rcases hp : parseLogItem t with _ | q <;> rw [hp] at h
  · rcases pre with _ | pp
    · cases h
    · right
      cases h
      exact ⟨rfl, pp, rfl, rfl, rfl⟩
  · left
    cases h
    exact ⟨rfl, rfl⟩

theorem nextLoop_ok_time (b e : Int) (flag : Nat) (pats : List (String → Bool))
    (rd : List String) (pd : List (List String)) (pre : Option LogMessage) :
    ∀ it r1 p1 pre1, nextLoop b e flag pats false rd pd pre = .ok (it, r1, p1, pre1) →
      b ≤ it.Time ∧ it.Time ≤ e := by
  induction rd, pd, pre using nextLoop.induct b e flag pats false with
  | case1 rd pd pre hcd => cases hcd
  | case2 pre hcd =>
    intro it r1 p1 pre1 h
    rw [nextLoop_endOfFiles] at h
    cases h
  | case3 pre hcd f fs ih =>
    intro it r1 p1 pre1 h
    rw [nextLoop_advanceFile] at h
    exact ih it r1 p1 pre1 h
  | case4 pd pre hcd l rest t hshort ih =>
    intro it r1 p1 pre1 h
    rw [nextLoop_consLine, if_pos hshort] at h
    exact ih it r1 p1 pre1 h
  | case5 pd pre hcd l rest t hshort hstep ih =>
    intro it r1 p1 pre1 h
    rw [nextLoop_consLine, if_neg hshort, hstep] at h
    exact ih it r1 p1 pre1 h
  | case6 pd pre hcd l rest t hshort item newPre hstep hhi =>
    intro it r1 p1 pre1 h
    rw [nextLoop_consLine, if_neg hshort, hstep] at h
    dsimp only at h
    rw [if_pos hhi] at h
    cases h
  | case7 pd pre hcd l rest t hshort item newPre hstep hhi hlo ih =>
    intro it r1 p1 pre1 h
    rw [nextLoop_consLine, if_neg hshort, hstep] at h
    dsimp only at h
    rw [if_neg hhi, if_pos hlo] at h
    exact ih it r1 p1 pre1 h
  | case8 pd pre hcd l rest t hshort item newPre hstep hhi hlo hlev ih =>
    intro it r1 p1 pre1 h
    rw [nextLoop_consLine, if_neg hshort, hstep] at h
    dsimp only at h
    rw [if_neg hhi, if_neg hlo, if_pos hlev] at h
    exact ih it r1 p1 pre1 h
  | case9 pd pre hcd l rest t hshort item newPre hstep hhi hlo hlev hpat ih =>
    intro it r1 p1 pre1 h
    rw [nextLoop_consLine, if_neg hshort, hstep] at h
    dsimp only at h
    rw [if_neg hhi, if_neg hlo, if_neg hlev, if_pos hpat] at h
    exact ih it r1 p1 pre1 h
  | case10 pd pre hcd l rest t hshort item newPre hstep hhi hlo hlev hpat =>
    intro it r1 p1 pre1 h
    rw [nextLoop_consLine, if_neg hshort, hstep] at h
    dsimp only at h
    rw [if_neg hhi, if_neg hlo, if_neg hlev, if_neg hpat] at h
    cases h
    omega

theorem nextLoop_preLog_spec (b e : Int) (flag : Nat) (pats : List (String → Bool))
    (rd : List String) (pd : List (List String)) (pre : Option LogMessage) :
    ∀ it r1 p1 pre1, nextLoop b e flag pats false rd pd pre = .ok (it, r1, p1, pre1) →
      ((∃ p, pre1 = some p ∧ it.Time = p.Time ∧ it.Level = p.Level) ∧
       (pre1 = pre ∨ ∃ s q, parseLogItem s = some q ∧ pre1 = some q)) := by
  induction rd, pd, pre using nextLoop.induct b e flag pats false with
  | case1 rd pd pre hcd => cases hcd
  | case2 pre hcd =>
    intro it r1 p1 pre1 h
    rw [nextLoop_endOfFiles] at h
    cases h
  | case3 pre hcd f fs ih =>
    intro it r1 p1 pre1 h
    rw [nextLoop_advanceFile] at h
    exact ih it r1 p1 pre1 h
  | case4 pd pre hcd l rest t hshort ih =>
    intro it r1 p1 pre1 h
    rw [nextLoop_consLine, if_pos hshort] at h
    exact ih it r1 p1 pre1 h
  | case5 pd pre hcd l rest t hshort hstep ih =>
    intro it r1 p1 pre1 h
    rw [nextLoop_consLine, if_neg hshort, hstep] at h
    exact ih it r1 p1 pre1 h
  | case6 pd pre hcd l rest t hshort item newPre hstep hhi =>
    intro it r1 p1 pre1 h
    rw [nextLoop_consLine, if_neg hshort, hstep] at h
    dsimp only at h
    rw [if_pos hhi] at h
    cases h
  | case7 pd pre hcd l rest t hshort item newPre hstep hhi hlo ih =>
    intro it r1 p1 pre1 h
    rw [nextLoop_consLine, if_neg hshort, hstep] at h
    dsimp only at h
    rw [if_neg hhi, if_pos hlo] at h
    refine ⟨(ih it r1 p1 pre1 h).1, ?_⟩
    rcases (ih it r1 p1 pre1 h).2 with h1 | h1
    · subst h1
      rcases continuationStep_inv hstep with ⟨hq, hn⟩ | ⟨hq, p, hp, hn, hi⟩
      · exact Or.inr ⟨_, _, hq, hn⟩
      · exact Or.inl hn
    · exact Or.inr h1
  | case8 pd pre hcd l rest t hshort item newPre hstep hhi hlo hlev ih =>
    intro it r1 p1 pre1 h
    rw [nextLoop_consLine, if_neg hshort, hstep] at h
    dsimp only at h
    rw [if_neg hhi, if_neg hlo, if_pos hlev] at h
    refine ⟨(ih it r1 p1 pre1 h).1, ?_⟩
    rcases (ih it r1 p1 pre1 h).2 with h1 | h1
    · subst h1
      rcases continuationStep_inv hstep with ⟨hq, hn⟩ | ⟨hq, p, hp, hn, hi⟩
      · exact Or.inr ⟨_, _, hq, hn⟩
      · exact Or.inl hn
    · exact Or.inr h1
  | case9 pd pre hcd l rest t hshort item newPre hstep hhi hlo hlev hpat ih =>
    intro it r1 p1 pre1 h
    rw [nextLoop_consLine, if_neg hshort, hstep] at h
    dsimp only at h
    rw [if_neg hhi, if_neg hlo, if_neg hlev, if_pos hpat] at h
    refine ⟨(ih it r1 p1 pre1 h).1, ?_⟩
    rcases (ih it r1 p1 pre1 h).2 with h1 | h1
    · subst h1
      rcases continuationStep_inv hstep with ⟨hq, hn⟩ | ⟨hq, p, hp, hn, hi⟩
      · exact Or.inr ⟨_, _, hq, hn⟩
      · exact Or.inl hn
    · exact Or.inr h1
  | case10 pd pre hcd l rest t hshort item newPre hstep hhi hlo hlev hpat =>
    intro it r1 p1 pre1 h
    rw [nextLoop_consLine, if_neg hshort, hstep] at h
    dsimp only at h
    rw [if_neg hhi, if_neg hlo, if_neg hlev, if_neg hpat] at h
    cases h
    rcases continuationStep_inv hstep with ⟨hq, hn⟩ | ⟨hq, p, hp, hn, hi⟩
    · subst hn
      exact ⟨⟨item, rfl, rfl, rfl⟩, Or.inr ⟨_, _, hq, rfl⟩⟩
    · subst hi
      subst hn
      subst hp
      exact ⟨⟨p, rfl, rfl, rfl⟩, Or.inl rfl⟩

/-- Claim C2: entries returned by next lie in the window; first over-end
entry ends iteration; below-begin entries are skipped. -/
theorem c2_time_window :
    (∀ (iter : logIterator) (it : LogMessage) (iter1 : logIterator),
      logIterator.next iter false = .ok (it, iter1) →
      iter.begin ≤ it.Time ∧ it.Time ≤ iter.end_) ∧
    (∀ (b e : Int) (flag : Nat) (pats : List (String → Bool)) (line : String)
       (rest : List String) (pd : List (List String)) (pre newPre : Option LogMessage)
       (item : LogMessage),
      continuationStep (trimString line) pre = some (item, newPre) →
      ¬(pre.isNone ∧ (trimString line).length < timeStampLayoutLen) →
      e < item.Time →
      nextLoop b e flag pats false (line :: rest) pd pre = .error .eofErr) ∧
    (∀ (b e : Int) (flag : Nat) (pats : List (String → Bool)) (line : String)
       (rest : List String) (pd : List (List String)) (pre newPre : Option LogMessage)
       (item : LogMessage),
      continuationStep (trimString line) pre = some (item, newPre) →
      ¬(pre.isNone ∧ (trimString line).length < timeStampLayoutLen) →
      ¬ e < item.Time → item.Time < b →
      nextLoop b e flag pats false (line :: rest) pd pre =
        nextLoop b e flag pats false rest pd newPre) := by
  refine ⟨?_, ?_, ?_⟩
  · intro iter it iter1 h
    unfold logIterator.next at h
    rcases hr : iter.reader with _ | rd <;> rw [hr] at h <;> dsimp only at h
    · rcases hp : iter.pending with _ | ⟨f, fs⟩ <;> rw [hp] at h <;> dsimp only at h
      · cases h
      · rcases hn : nextLoop iter.begin iter.end_ iter.levelFlag iter.patterns false f fs
            iter.preLog with err | ⟨it2, r1, p1, pre1⟩ <;> rw [hn] at h
        · cases h
        · simp only [Except.map] at h
          cases h
          exact nextLoop_ok_time _ _ _ _ _ _ _ _ _ _ _ hn
    · rcases hn : nextLoop iter.begin iter.end_ iter.levelFlag iter.patterns false rd
          iter.pending iter.preLog with err | ⟨it2, r1, p1, pre1⟩ <;> rw [hn] at h
      · cases h
      · simp only [Except.map] at h
        cases h
        exact nextLoop_ok_time _ _ _ _ _ _ _ _ _ _ _ hn
  · intro b e flag pats line rest pd pre newPre item hstep hguard hhi
    rw [nextLoop_consLine, if_neg hguard, hstep]
    dsimp only
    rw [if_pos hhi]
  · intro b e flag pats line rest pd pre newPre item hstep hguard hhi hlo
    rw [nextLoop_consLine, if_neg hguard, hstep]
    dsimp only
    rw [if_neg hhi, if_pos hlo]

/-- Claim C2, witness: a concrete in-window entry, a concrete over-end early
EOF, and a concrete below-begin skip. -/
theorem c2_time_window_witness :
    ((0 : Int) ≤ (1566814753011 : Int) ∧ (1566814753011 : Int) ≤ (1566814753011 : Int)) ∧
    nextLoop 0 0 0 [] false ["[2019/08/26 06:19:13.011 -04:00] [INFO] hello"] [] none =
      .error .eofErr ∧
    nextLoop 1566814753012 1566814753011 0 [] false
      ["[2019/08/26 06:19:13.011 -04:00] [INFO] hello"] [] none =
      nextLoop 1566814753012 1566814753011 0 [] false [] []
        (some ⟨1566814753011, .Info, "hello"⟩) := by
  refine ⟨?_, ?_, ?_⟩
  · exact c2_time_window.1
      ⟨0, 1566814753011, 0, [], some ["[2019/08/26 06:19:13.011 -04:00] [INFO] hello"], [], none⟩
      ⟨1566814753011, .Info, "hello"⟩
      ⟨0, 1566814753011, 0, [], some [], [], some ⟨1566814753011, .Info, "hello"⟩⟩
      (by simp only [logIterator.next]
          rw [nextLoop_consLine]
          rfl)
  · exact c2_time_window.2.1 0 0 0 [] _ [] [] none
      (some ⟨1566814753011, .Info, "hello"⟩) ⟨1566814753011, .Info, "hello"⟩
      (by decide) (by decide) (by decide)
  · exact c2_time_window.2.2 1566814753012 1566814753011 0 [] _ [] [] none
      (some ⟨1566814753011, .Info, "hello"⟩) ⟨1566814753011, .Info, "hello"⟩
      (by decide) (by decide) (by decide) (by decide)

/-- Claim C3: an unparsable trimmed line after a previous entry becomes a
continuation entry with the previous time and severity and the trimmed line
as message (returned whenever the filters pass), while an unparsable line
with no previous entry is discarded and iteration continues. -/
theorem c3_continuation_entry (b e : Int) (flag : Nat) (pats : List (String → Bool))
    (line : String) (rest : List String) (pd : List (List String)) (p : LogMessage)
    (hfail : parseLogItem (trimString line) = none)
    (hlo : ¬ p.Time < b) (hhi : ¬ e < p.Time)
    (hlev : ¬(0 < p.Level.toNat ∧ flag ≠ 0 ∧ flag &&& (1 <<< p.Level.toNat) = 0))
    (hpat : ¬(0 < pats.length ∧ pats.any (fun q => ! q (trimString line)))) :
    nextLoop b e flag pats false (line :: rest) pd (some p) =
      .ok (⟨p.Time, p.Level, trimString line⟩, rest, pd, some p) ∧
    nextLoop b e flag pats false (line :: rest) pd none =
      nextLoop b e flag pats false rest pd none := by
  constructor
  · have hstep : continuationStep (trimString line) (some p) =
        some (⟨p.Time, p.Level, trimString line⟩, some p) := by
      unfold continuationStep
      rw [hfail]
    rw [nextLoop_consLine, if_neg (by simp), hstep]
    dsimp only
    rw [if_neg hhi, if_neg hlo, if_neg hlev, if_neg hpat]
  · by_cases hlen : (trimString line).length < timeStampLayoutLen
    · rw [nextLoop_consLine, if_pos ⟨rfl, hlen⟩]
    · have hstep : continuationStep (trimString line) none = none := by
        unfold continuationStep
        rw [hfail]
      rw [nextLoop_consLine, if_neg (by simpa using hlen), hstep]

/-- Claim C3, witness: the continuation of a concrete INFO entry by the line
"stack trace continuation", and the discarding of that line with no previous
entry. -/
theorem c3_continuation_entry_witness :
    nextLoop 0 2000000000000 0 [] false ["stack trace continuation"] []
      (some ⟨1566814753011, .Info, "hello"⟩) =
      .ok (⟨1566814753011, .Info, "stack trace continuation"⟩, [], [],
        some ⟨1566814753011, .Info, "hello"⟩) ∧
    nextLoop 0 2000000000000 0 [] false ["stack trace continuation"] [] none =
      nextLoop 0 2000000000000 0 [] false [] [] none :=
  c3_continuation_entry 0 2000000000000 0 [] "stack trace continuation" [] []
    ⟨1566814753011, .Info, "hello"⟩ (by decide) (by decide) (by decide) (by decide) (by decide)

/-- Claim C8: with severity mask 0 every severity passes, Unknown included;
with a nonzero mask an Unknown entry is never excluded by the severity
filter, and a known severity of ordinal i passes the filter if and only if
bit i of the mask is set (otherwise the entry is skipped and the loop
continues). -/
theorem c8_severity_filter (b e : Int) (flag : Nat) (line : String) (rest : List String)
    (pd : List (List String)) (pre newPre : Option LogMessage) (item : LogMessage)
    (hstep : continuationStep (trimString line) pre = some (item, newPre))
    (hguard : ¬(pre.isNone ∧ (trimString line).length < timeStampLayoutLen))
    (hlo : ¬ item.Time < b) (hhi : ¬ e < item.Time) :
    (flag = 0 → nextLoop b e flag [] false (line :: rest) pd pre = .ok (item, rest, pd, newPre)) ∧
    (item.Level = .UNKNOWN →
      nextLoop b e flag [] false (line :: rest) pd pre = .ok (item, rest, pd, newPre)) ∧
    (flag ≠ 0 → item.Level ≠ .UNKNOWN →
      ((flag.testBit item.Level.toNat →
        nextLoop b e flag [] false (line :: rest) pd pre = .ok (item, rest, pd, newPre)) ∧
       (¬ flag.testBit item.Level.toNat →
        nextLoop b e flag [] false (line :: rest) pd pre =
          nextLoop b e flag [] false rest pd newPre))) := by
  rw [nextLoop_consLine, if_neg hguard, hstep]
  simp only [hlo, hhi, if_false, List.length_nil, List.any_nil, lt_irrefl, false_and, and_false]
  refine ⟨?_, ?_, ?_⟩
  · intro h0
    simp [h0]
  · intro hu
    simp [hu, LogLevel.toNat]
  · intro hf hu
    constructor
    · intro hbit
      have : ¬ (flag &&& (1 <<< item.Level.toNat) = 0) := by
        rw [and_shift_eq_zero_iff]
        simp [hbit]
      simp [this]
    · intro hbit
      have h1 : flag &&& (1 <<< item.Level.toNat) = 0 := by
        rw [and_shift_eq_zero_iff]
        simpa using hbit
      have h2 : 0 < item.Level.toNat := (toNat_pos_iff item.Level).mpr hu
      simp [h1, h2, hf]

/-- Claim C8, witness: mask 4 (bit 2, Info) lets a concrete Info entry
through the severity filter. -/
theorem c8_severity_filter_witness :
    nextLoop 0 2000000000000 4 [] false ["[2019/08/26 06:19:13.011 -04:00] [INFO] hello"] []
      none =
      .ok (⟨1566814753011, .Info, "hello"⟩, [], [], some ⟨1566814753011, .Info, "hello"⟩) :=
  (((c8_severity_filter 0 2000000000000 4 "[2019/08/26 06:19:13.011 -04:00] [INFO] hello" []
    [] none (some ⟨1566814753011, .Info, "hello"⟩) ⟨1566814753011, .Info, "hello"⟩
    (by decide) (by decide) (by decide) (by decide)).2.2 (by decide) (by decide)).1 (by decide))

/-- Claim C10: a returned entry always carries the time and severity of the
final previous-entry state, and that state is only ever replaced by a
successfully parsed line, never by a synthesized continuation entry. -/
theorem c10_preLog_only_parsed (iter : logIterator) (it : LogMessage) (iter1 : logIterator)
    (h : logIterator.next iter false = .ok (it, iter1)) :
    (∃ p, iter1.preLog = some p ∧ it.Time = p.Time ∧ it.Level = p.Level) ∧
    (iter1.preLog = iter.preLog ∨ ∃ s q, parseLogItem s = some q ∧ iter1.preLog = some q) := by
  unfold logIterator.next at h
  rcases hr : iter.reader with _ | rd <;> rw [hr] at h <;> dsimp only at h
  · rcases hp : iter.pending with _ | ⟨f, fs⟩ <;> rw [hp] at h <;> dsimp only at h
    · cases h
    · rcases hn : nextLoop iter.begin iter.end_ iter.levelFlag iter.patterns false f fs
          iter.preLog with err | ⟨it2, r1, p1, pre1⟩ <;> rw [hn] at h <;>
        simp only [Except.map] at h
      · cases h
      · cases h
        exact nextLoop_preLog_spec _ _ _ _ _ _ _ _ _ _ _ hn
  · rcases hn : nextLoop iter.begin iter.end_ iter.levelFlag iter.patterns false rd
        iter.pending iter.preLog with err | ⟨it2, r1, p1, pre1⟩ <;> rw [hn] at h <;>
      simp only [Except.map] at h
    · cases h
    · cases h
      exact nextLoop_preLog_spec _ _ _ _ _ _ _ _ _ _ _ hn

/-- Claim C10, witness: a run returning a continuation entry, whose state
keeps the previous parsed entry. -/
theorem c10_preLog_only_parsed_witness :
    (∃ p, (some (⟨1566814753011, .Info, "hello"⟩ : LogMessage)) = some p ∧
      (⟨1566814753011, .Info, "stack trace continuation"⟩ : LogMessage).Time = p.Time ∧
      (⟨1566814753011, .Info, "stack trace continuation"⟩ : LogMessage).Level = p.Level) ∧
    ((some (⟨1566814753011, .Info, "hello"⟩ : LogMessage)) =
        some (⟨1566814753011, .Info, "hello"⟩ : LogMessage) ∨
      ∃ s q, parseLogItem s = some q ∧
        (some (⟨1566814753011, .Info, "hello"⟩ : LogMessage)) = some q) :=
  c10_preLog_only_parsed
    ⟨0, 2000000000000, 0, [], some ["stack trace continuation"], [],
      some ⟨1566814753011, .Info, "hello"⟩⟩
    ⟨1566814753011, .Info, "stack trace continuation"⟩
    ⟨0, 2000000000000, 0, [], some [], [],
      some ⟨1566814753011, .Info, "hello"⟩⟩
    (by simp only [logIterator.next]
        rw [nextLoop_consLine]
        rfl)

theorem keepInWindow_iff (x y : Int) (f : logFile) :
    keepInWindow x y f = true ↔ x ≤ f.end_ ∧ f.begin ≤ y := by
  simp [keepInWindow]

theorem pruneFiles_of_tail_ge (x : Int) :
    ∀ l : List logFile, (∀ g ∈ l.tail, ¬ g.begin < x) → pruneFiles x l = l := by
  intro l
  match l with
  | [] => intro _; rfl
  | [f] => intro _; rfl
  | f :: g :: rest =>
    intro h
    unfold pruneFiles
    rw [if_neg (h g (by simp))]

/-- Claim C1: for pairwise-disjoint, well-formed candidate spans, the
resolver's filter/sort/prune phase returns exactly the claimed list: the
window-intersecting candidates sorted ascending by begin time, pruned so
that among files beginning before the query start only the one with the
greatest begin time survives, together with every file beginning at or after
the query start. -/
theorem c1_resolve_filter_sort_prune (x y : Int) (fs : List logFile)
    (hdisj : fs.Pairwise fun f g => f.end_ < g.begin)
    (hwf : ∀ f ∈ fs, f.begin ≤ f.end_) :
    resolveFilesCore x y fs = resolveFilesClaimed x y fs := by
  have hfilt : fs.filter (keepInWindow x y) =
      fs.filter (fun f => decide (x ≤ f.end_) && decide (f.begin ≤ y)) := by
    refine List.filter_congr ?_
    intro f _
    rw [Bool.eq_iff_iff]
    simp [keepInWindow]
  unfold resolveFilesCore resolveFilesClaimed
  rw [hfilt]
  have hmemK : ∀ f ∈ fs.filter (fun f => decide (x ≤ f.end_) && decide (f.begin ≤ y)),
      x ≤ f.end_ ∧ f.begin ≤ y := by
    intro f hf
    have := List.of_mem_filter hf
    simpa using this
  have hKwf : ∀ f ∈ fs.filter (fun f => decide (x ≤ f.end_) && decide (f.begin ≤ y)),
      f.begin ≤ f.end_ := fun f hf => hwf f (List.mem_of_mem_filter hf)
  have hKdisj : (fs.filter (fun f => decide (x ≤ f.end_) && decide (f.begin ≤ y))).Pairwise
      (fun f g => f.end_ < g.begin) := hdisj.filter _
  generalize hK : fs.filter (fun f => decide (x ≤ f.end_) && decide (f.begin ≤ y)) = K
    at hmemK hKwf hKdisj ⊢
  have hsorted : K.Pairwise fun f g => (fun a b : logFile => decide (a.begin ≤ b.begin)) f g := by
    refine hKdisj.imp_of_mem ?_
    intro a b ha hb hr
    have h1 : a.begin ≤ a.end_ := hKwf a ha
    simp only [decide_eq_true_eq]
    omega
  have hsort : sortByBegin K = K := by
    unfold sortByBegin
    exact List.mergeSort_of_sorted hsorted
  rw [hsort]
  have htail : ∀ g ∈ K.tail, ¬ g.begin < x := by
    cases K with
    | nil => simp
    | cons f rest =>
      intro g hg
      simp only [List.tail_cons] at hg
      have h1 : f.end_ < g.begin := List.rel_of_pairwise_cons hKdisj hg
      have h2 : x ≤ f.end_ := (hmemK f (by simp)).1
      omega
  rw [pruneFiles_of_tail_ge x K htail]
  cases K with
  | nil => rfl
  | cons f rest =>
    dsimp only
    have htail2 : ∀ g ∈ rest, ¬ g.begin < x := by
      intro g hg
      exact htail g (by simpa using hg)
    by_cases hfx : f.begin < x
    · have hbefore : List.filter (fun f => decide (f.begin < x)) (f :: rest) = [f] := by
        rw [List.filter_cons, if_pos (by simpa using hfx)]
        rw [List.filter_eq_nil_iff.mpr (fun g hg => by simpa using htail2 g hg)]
      have hafter : List.filter (fun f => decide (x ≤ f.begin)) (f :: rest) = rest := by
        rw [List.filter_cons, if_neg (by simpa using hfx)]
        refine List.filter_eq_self.mpr ?_
        intro g hg
        have := htail2 g hg
        simp only [decide_eq_true_eq]
        omega
      rw [hbefore, hafter]
      rfl
    · have hbefore : List.filter (fun f => decide (f.begin < x)) (f :: rest) = [] := by
        refine List.filter_eq_nil_iff.mpr ?_
        intro g hg
        rcases List.mem_cons.mp hg with hg | hg
        · subst hg
          simpa using hfx
        · simpa using htail2 g hg
      have hafter : List.filter (fun f => decide (x ≤ f.begin)) (f :: rest) = f :: rest := by
        refine List.filter_eq_self.mpr ?_
        intro g hg
        simp only [decide_eq_true_eq]
        rcases List.mem_cons.mp hg with hg | hg
        · subst hg
          omega
        · have := htail2 g hg
          omega
      rw [hbefore, hafter]
      rfl

/-- Claim C1, witness: three disjoint sorted spans with a window starting
inside the second one. -/
theorem c1_resolve_filter_sort_prune_witness :
    resolveFilesCore 25 100 [⟨0, 10⟩, ⟨20, 30⟩, ⟨40, 50⟩] =
      resolveFilesClaimed 25 100 [⟨0, 10⟩, ⟨20, 30⟩, ⟨40, 50⟩] :=
  c1_resolve_filter_sort_prune 25 100 [⟨0, 10⟩, ⟨20, 30⟩, ⟨40, 50⟩] (by decide) (by decide)

theorem readLastLoop_zero (readAt : Nat → Nat → Option (List Char)) (cd : Bool)
    (size : Nat) (hs : 0 < size) (acc : List Char) :
    readLastLoop readAt cd 0 size hs acc = (.ok (acc, 0), []) := by
  rw [readLastLoop.eq_def]
  simp

theorem readLastLoop_step (readAt : Nat → Nat → Option (List Char)) (cd : Bool)
    (cursor size : Nat) (hs : 0 < size) (acc : List Char) (hc : ¬ cursor = 0) :
    readLastLoop readAt cd cursor size hs acc =
      (match readAt (cursor - nextSize size cursor) (nextSize size cursor) with
       | none => (.error (if cd then some .cancelled else none), [nextSize size cursor])
       | some chars =>
         if 0 < scanChunk chars (chars ++ acc).length then
           (.ok (chars ++ acc, scanChunk chars (chars ++ acc).length), [nextSize size cursor])
         else if cd then (.error (some .cancelled), [nextSize size cursor])
         else
           ((readLastLoop readAt cd (cursor - nextSize size cursor) (nextSize size cursor)
              (nextSize_pos hs (Nat.pos_of_ne_zero hc)) (chars ++ acc)).1,
            nextSize size cursor ::
              (readLastLoop readAt cd (cursor - nextSize size cursor) (nextSize size cursor)
                (nextSize_pos hs (Nat.pos_of_ne_zero hc)) (chars ++ acc)).2)) := by
  rw [readLastLoop.eq_def, dif_neg hc]

theorem nextSize_eq_min (size cursor : Nat) :
    nextSize size cursor = min (min (size * 2) maxReadCacheSize) cursor := by
  simp only [nextSize]
  split_ifs <;> omega

theorem readLastLoop_trace_sizes (readAt : Nat → Nat → Option (List Char)) (cd : Bool) :
    ∀ (cursor size : Nat) (hs : 0 < size) (acc : List Char) (k : Nat) (x : Nat),
      (readLastLoop readAt cd cursor size hs acc).2[k]? = some x →
      x = min (min (size * 2 ^ (k + 1)) maxReadCacheSize)
          (cursor - (((readLastLoop readAt cd cursor size hs acc).2.take k).sum)) := by
  intro cursor size hs acc
  induction cursor, size, hs, acc using readLastLoop.induct readAt cd with
  | case1 size hs acc =>
    intro k x h
    rw [readLastLoop_zero] at h
    simp at h
  | case2 cursor size hs acc hc size3 cursor1 hfail =>
    intro k x h
    rw [readLastLoop_step readAt cd cursor size hs acc hc] at h ⊢
    rw [show readAt (cursor - nextSize size cursor) (nextSize size cursor) = none from hfail] at h ⊢
    dsimp only at h ⊢
    match k, h with
    | 0, h =>
      simp only [List.getElem?_cons_zero, Option.some_inj] at h
      subst h
      simp only [List.take, List.sum_nil, Nat.sub_zero, pow_one]
      rw [nextSize_eq_min]
      norm_num
    | k + 1, h => simp at h
  | case3 cursor size hs acc hc size3 cursor1 chars hread acc1 pos hpos =>
    intro k x h
    rw [readLastLoop_step readAt cd cursor size hs acc hc] at h ⊢
    rw [show readAt (cursor - nextSize size cursor) (nextSize size cursor) = some chars from hread]
      at h ⊢
    dsimp only at h ⊢
    rw [if_pos (show 0 < scanChunk chars (chars ++ acc).length from hpos)] at h ⊢
    match k, h with
    | 0, h =>
      simp only [List.getElem?_cons_zero, Option.some_inj] at h
      subst h
      simp only [List.take, List.sum_nil, Nat.sub_zero, pow_one]
      rw [nextSize_eq_min]
      norm_num
    | k + 1, h => simp at h
  | case4 cursor size hs acc hc size3 cursor1 chars hread acc1 pos hpos hcd =>
    intro k x h
    rw [readLastLoop_step readAt cd cursor size hs acc hc] at h ⊢
    rw [show readAt (cursor - nextSize size cursor) (nextSize size cursor) = some chars from hread]
      at h ⊢
    dsimp only at h ⊢
    rw [if_neg (show ¬ 0 < scanChunk chars (chars ++ acc).length from hpos), if_pos hcd] at h ⊢
    match k, h with
    | 0, h =>
      simp only [List.getElem?_cons_zero, Option.some_inj] at h
      subst h
      simp only [List.take, List.sum_nil, Nat.sub_zero, pow_one]
      rw [nextSize_eq_min]
      norm_num
    | k + 1, h => simp at h
  | case5 cursor size hs acc hc size3 cursor1 chars hread acc1 pos hpos hcd ih =>
    intro k x h
    rw [readLastLoop_step readAt cd cursor size hs acc hc] at h ⊢
    rw [show readAt (cursor - nextSize size cursor) (nextSize size cursor) = some chars from hread]
      at h ⊢
    dsimp only at h ⊢
    rw [if_neg (show ¬ 0 < scanChunk chars (chars ++ acc).length from hpos), if_neg hcd] at h ⊢
    match k, h with
    | 0, h =>
      simp only [List.getElem?_cons_zero, Option.some_inj] at h
      subst h
      simp only [List.take, List.sum_nil, Nat.sub_zero, pow_one]
      rw [nextSize_eq_min]
      norm_num
    | k + 1, h =>
      simp only [List.getElem?_cons_succ] at h
      have hx := ih k x h
      simp only [List.take_succ_cons, List.sum_cons]
      rw [hx]
      by_cases hred : cursor < (if maxReadCacheSize < size * 2 then maxReadCacheSize else size * 2)
      · exfalso
        have hz : cursor - nextSize size cursor = 0 := by
          simp only [nextSize, hred, if_pos]
          omega
        rw [hz, readLastLoop_zero] at h
        simp at h
      · have hns : nextSize size cursor =
            (if maxReadCacheSize < size * 2 then maxReadCacheSize else size * 2) := by
          simp only [nextSize]
          rw [if_neg hred]
        have harith : min (nextSize size cursor * 2 ^ (k + 1)) maxReadCacheSize =
            min (size * 2 ^ (k + 1 + 1)) maxReadCacheSize := by
          rw [hns]
          have hp : 0 < 2 ^ (k + 1) := Nat.pos_pow_of_pos _ (by omega)
          split_ifs with hcap
          · rw [Nat.min_eq_right (Nat.le_mul_of_pos_right _ hp)]
            have hle : maxReadCacheSize ≤ size * 2 ^ (k + 1 + 1) := by
              calc maxReadCacheSize ≤ size * 2 := by omega
                _ ≤ size * 2 * 2 ^ (k + 1) := Nat.le_mul_of_pos_right _ hp
                _ = size * 2 ^ (k + 1 + 1) := by ring
            rw [Nat.min_eq_right hle]
          · congr 1
            ring
        have hsub : cursor - nextSize size cursor -
            ((readLastLoop readAt cd (cursor - nextSize size cursor) (nextSize size cursor)
              (nextSize_pos hs (Nat.pos_of_ne_zero hc)) (chars ++ acc)).2.take k).sum =
            cursor - (nextSize size cursor +
              ((readLastLoop readAt cd (cursor - nextSize size cursor) (nextSize size cursor)
                (nextSize_pos hs (Nat.pos_of_ne_zero hc)) (chars ++ acc)).2.take k).sum) := by
          omega
        rw [hsub, harith]

theorem readLastLoop_trace_head (readAt : Nat → Nat → Option (List Char)) (cd : Bool)
    (cursor size : Nat) (hs : 0 < size) (acc : List Char) (hc : ¬ cursor = 0) :
    (readLastLoop readAt cd cursor size hs acc).2[0]? = some (nextSize size cursor) := by
  rw [readLastLoop_step readAt cd cursor size hs acc hc]
  rcases h : readAt (cursor - nextSize size cursor) (nextSize size cursor) with _ | chars
  · simp
  · dsimp only
    split
    · simp
    · split <;> simp

/-- Claim C5, counterexample: on a 300-byte file the first round reads 300
bytes (the doubling happens before the first read, giving min(512, distance)),
not the 256 bytes the claim asserts for the first round. -/
theorem c5_first_chunk_counterexample :
    (readLastLinesTrace false (fileReadAt (List.replicate 300 'a')) 300)[0]? = some 300 ∧
    (300 : Nat) ≠ 256 := by
  constructor
  · unfold readLastLinesTrace
    rw [readLastLoop_trace_head (fileReadAt (List.replicate 300 'a')) false 300 256
      (by norm_num) [] (by decide)]
    decide
  · decide

/-- Claim C5 (amended): the chunk read in round k (0-based) of the backward
scan has size exactly min(256 * 2 ^ (k+1), 16 MiB, remaining distance to
offset 0); in particular the first round reads min(512, 16 MiB, fileSize)
bytes — 512, not 256, when the file is large enough — sizes double each
round, are capped at 16 MiB, and the final round is clamped to the distance
left to the start of the file. -/
theorem c5_chunk_size_schedule (ctxDone : Bool) (readAt : Nat → Nat → Option (List Char))
    (endCursor k x : Nat)
    (h : (readLastLinesTrace ctxDone readAt endCursor)[k]? = some x) :
    x = min (min (256 * 2 ^ (k + 1)) maxReadCacheSize)
        (endCursor - ((readLastLinesTrace ctxDone readAt endCursor).take k).sum) := by
  unfold readLastLinesTrace at h ⊢
  exact readLastLoop_trace_sizes readAt ctxDone endCursor 256 (by norm_num) [] k x h

/-- Claim C5, witness: the schedule theorem applied to the 300-byte file. -/
theorem c5_chunk_size_schedule_witness :
    (300 : Nat) = min (min (256 * 2 ^ (0 + 1)) maxReadCacheSize)
        (300 - ((readLastLinesTrace false (fileReadAt (List.replicate 300 'a')) 300).take 0).sum) :=
  c5_chunk_size_schedule false (fileReadAt (List.replicate 300 'a')) 300 0 300
    (by unfold readLastLinesTrace
        rw [readLastLoop_trace_head (fileReadAt (List.replicate 300 'a')) false 300 256
          (by norm_num) [] (by decide)]
        decide)

/-- No lone carriage return: every CR in the byte list is immediately
followed by LF.  This is the class of files on which backward and forward
line decomposition agree (claim C6, amended). -/
def noLoneCr : List Char → Bool
  | [] => true
  | c :: rest => (c ≠ '\r' || rest.head? == some '\n') && noLoneCr rest

/-- A clean cut position for the backward scan: either the start of the
file, or a position right after a line terminator and on a non-terminator. -/
def cleanCut (content : List Char) (p : Nat) : Prop :=
  p = 0 ∨ (0 < p ∧ p < content.length ∧ isLineTerm (content.getD (p - 1) ' ') = true
    ∧ isLineTerm (content.getD p ' ') = false)

theorem splitNl_cons (c : Char) (rest : List Char) :
    splitNl (c :: rest) =
      if c = '\n' then [] :: splitNl rest
      else
        match splitNl rest with
        | f :: fs => (c :: f) :: fs
        | [] => [[c]] := rfl

theorem noLoneCr_cons {c : Char} {rest : List Char} (h : noLoneCr (c :: rest) = true) :
    (c = '\r' → rest.head? = some '\n') ∧ noLoneCr rest = true := by
  unfold noLoneCr at h
  rw [Bool.and_eq_true] at h
  obtain ⟨h1, h2⟩ := h
  refine ⟨?_, h2⟩
  intro hc
  subst hc
  rw [Bool.or_eq_true] at h1
  rcases h1 with h1 | h1
  · simp at h1
  · simpa using h1

theorem noLoneCr_drop {cs : List Char} (h : noLoneCr cs = true) :
    ∀ p, noLoneCr (cs.drop p) = true := by
  induction cs with
  | nil => intro p; simp [noLoneCr]
  | cons c rest ih =>
    intro p
    match p with
    | 0 => exact h
    | p + 1 => exact ih (noLoneCr_cons h).2 p

theorem splitNl_ne_nil : ∀ cs : List Char, splitNl cs ≠ [] := by
  intro cs
  match cs with
  | [] => simp [splitNl]
  | c :: rest =>
    rw [splitNl_cons]
    split
    · simp
    · split <;> simp

theorem splitNl_tail_suffix : ∀ (a b : List Char),
    splitNl b <:+ (splitNl (a ++ '\n' :: b)).tail := by
  intro a
  induction a with
  | nil =>
    intro b
    rw [List.nil_append, splitNl_cons, if_pos rfl, List.tail_cons]
  | cons c a ih =>
    intro b
    rw [List.cons_append, splitNl_cons]
    split
    · rw [List.tail_cons]
      exact (ih b).trans (List.tail_suffix _)
    · rcases hX : splitNl (a ++ '\n' :: b) with _ | ⟨f, fs⟩
      · exact absurd hX (splitNl_ne_nil _)
      · have h2 := ih b
        rw [hX] at h2
        simp only [List.tail_cons] at h2
        simp only [List.tail_cons]
        exact h2

theorem stripCr_cons (c : Char) (f : List Char) (h : c ≠ '\r' ∨ f ≠ []) :
    stripCr (c :: f) = c :: stripCr f := by
  match f with
  | [] =>
    rcases h with h | h
    · unfold stripCr
      simp only [List.getLast?_singleton]
      split
      · rename_i heq
        simp only [Option.some_inj] at heq
        exact absurd heq h
      · rfl
    · exact absurd rfl h
  | g :: f1 =>
    unfold stripCr
    rw [List.getLast?_cons_cons]
    split
    · rw [List.dropLast_cons₂]
    · rfl

theorem replCrLf_nil : replCrLf [] = [] := rfl

theorem replCrLf_single (c : Char) : replCrLf [c] = [c] := rfl

theorem replCrLf_cons2 (c1 c2 : Char) (rest : List Char) :
    replCrLf (c1 :: c2 :: rest) =
      if c1 = '\r' ∧ c2 = '\n' then '\n' :: replCrLf rest
      else c1 :: replCrLf (c2 :: rest) := rfl

theorem splitNl_replCrLf : ∀ cs : List Char, noLoneCr cs = true →
    splitNl (replCrLf cs) = (splitNl cs).map stripCr := by
  intro cs
  induction cs using replCrLf.induct with
  | case1 => intro _; rfl
  | case2 c =>
    intro h
    by_cases hc : c = '\n'
    · subst hc
      rfl
    · have hcr : c ≠ '\r' := by
        intro hcc
        subst hcc
        have := (noLoneCr_cons h).1 rfl
        simp at this
      have hs : splitNl [c] = [[c]] := by
        rw [splitNl_cons, if_neg hc]
        rfl
      rw [replCrLf_single, hs]
      simp only [List.map_cons, List.map_nil]
      rw [stripCr_cons c [] (Or.inl hcr)]
      rfl
  | case3 c1 c2 rest hcond ih =>
    intro h
    obtain ⟨hc1, hc2⟩ := hcond
    subst hc1
    subst hc2
    rw [replCrLf_cons2, if_pos ⟨rfl, rfl⟩]
    have hrest : noLoneCr rest = true := (noLoneCr_cons (noLoneCr_cons h).2).2
    rw [splitNl_cons, if_pos rfl, ih hrest]
    rw [splitNl_cons (c := '\r'), if_neg (by decide), splitNl_cons, if_pos rfl]
    simp only [List.map_cons]
    congr 1
  | case4 c1 c2 rest hcond ih =>
    intro h
    rw [replCrLf_cons2, if_neg hcond]
    have h2 : noLoneCr (c2 :: rest) = true := (noLoneCr_cons h).2
    by_cases hc1 : c1 = '\n'
    · subst hc1
      rw [splitNl_cons, if_pos rfl, splitNl_cons, if_pos rfl, ih h2]
      rfl
    · have hcr : c1 ≠ '\r' := by
        intro hcc
        subst hcc
        have := (noLoneCr_cons h).1 rfl
        simp only [List.head?_cons, Option.some_inj] at this
        exact hcond ⟨rfl, this⟩
      rw [splitNl_cons, if_neg hc1, splitNl_cons, if_neg hc1, ih h2]
      rcases hX : splitNl (c2 :: rest) with _ | ⟨f, fs⟩
      · exact absurd hX (splitNl_ne_nil _)
      · simp only [List.map_cons]
        rw [stripCr_cons c1 f (Or.inl hcr)]

theorem scanChunkGo_pos (L : Nat) : ∀ (cs : List Char) (i : Nat), 0 < scanChunkGo L i cs →
    ∃ j, scanChunkGo L i cs = i + j + 1 ∧ j + 1 < cs.length ∧
      isLineTerm (cs.getD j ' ') = true ∧ isLineTerm (cs.getD (j + 1) ' ') = false := by
  intro cs
  induction cs with
  | nil => intro i h; cases h
  | cons c1 cs ih =>
    intro i h
    rcases cs with _ | ⟨c2, rest⟩
    · cases h
    · rw [show scanChunkGo L i (c1 :: c2 :: rest) =
          (if L - 1 ≤ i then 0
           else if isLineTerm c1 ∧ ¬ isLineTerm c2 then i + 1
           else scanChunkGo L (i + 1) (c2 :: rest)) from rfl] at h ⊢
      by_cases hbrk : L - 1 ≤ i
      · rw [if_pos hbrk] at h
        cases h
      · rw [if_neg hbrk] at h ⊢
        by_cases hcond : isLineTerm c1 ∧ ¬ isLineTerm c2
        · rw [if_pos hcond]
          exact ⟨0, by omega, by simp, hcond.1, by simpa using hcond.2⟩
        · rw [if_neg hcond] at h ⊢
          obtain ⟨j, hj, hjlt, ht, hnt⟩ := ih (i + 1) h
          exact ⟨j + 1, by omega, by simpa using hjlt, ht, hnt⟩

theorem scanChunk_pos (chars : List Char) (L : Nat) (h : 0 < scanChunk chars L) :
    ∃ j, scanChunk chars L = j + 1 ∧ j + 1 < chars.length ∧
      isLineTerm (chars.getD j ' ') = true ∧ isLineTerm (chars.getD (j + 1) ' ') = false := by
  obtain ⟨j, hj, hjlt, ht, hnt⟩ := scanChunkGo_pos L chars 0 (by unfold scanChunk at h; exact h)
  exact ⟨j, by unfold scanChunk; omega, hjlt, ht, hnt⟩

theorem slice_append (l : List Char) (a b : Nat) :
    (l.drop a).take b ++ l.drop (a + b) = l.drop a := by
  have h := List.take_append_drop b (l.drop a)
  rw [List.drop_drop] at h
  exact h

theorem getD_drop_take (l : List Char) (a b j : Nat) (h : j < ((l.drop a).take b).length)
    (d : Char) : ((l.drop a).take b).getD j d = l.getD (a + j) d := by
  rw [List.getD_eq_getElem?_getD, List.getD_eq_getElem?_getD]
  rw [List.length_take] at h
  rw [List.getElem?_take, if_pos (lt_min_iff.mp h).1, List.getElem?_drop]

theorem readLastLoop_result (content : List Char) :
    ∀ (cursor size : Nat) (hs : 0 < size) (acc : List Char),
      acc = content.drop cursor → cursor ≤ content.length →
      ∃ c1 pos, (readLastLoop (fileReadAt content) false cursor size hs acc).1 =
          .ok (content.drop c1, pos) ∧ cleanCut content (c1 + pos) := by
  intro cursor size hs acc
  induction cursor, size, hs, acc using readLastLoop.induct (fileReadAt content) false with
  | case1 size hs acc =>
    intro hacc hle
    refine ⟨0, 0, ?_, Or.inl rfl⟩
    rw [readLastLoop_zero, hacc]
  | case2 cursor size hs acc hc size3 cursor1 hfail =>
    intro hacc hle
    exact absurd hfail (by simp [fileReadAt])
  | case3 cursor size hs acc hc size3 cursor1 chars hread acc1 pos hpos =>
    intro hacc hle
    have hs3 : nextSize size cursor ≤ cursor := by
      simp only [nextSize]
      split_ifs <;> omega
    have hchars : chars =
        (content.drop (cursor - nextSize size cursor)).take (nextSize size cursor) := by
      have h2 := hread
      simp only [fileReadAt, Option.some_inj] at h2
      exact h2.symm
    have hacc1 : chars ++ acc = content.drop (cursor - nextSize size cursor) := by
      have h2 := slice_append content (cursor - nextSize size cursor) (nextSize size cursor)
      rw [Nat.sub_add_cancel hs3] at h2
      rw [hchars, hacc]
      exact h2
    refine ⟨cursor - nextSize size cursor, scanChunk chars (chars ++ acc).length, ?_, ?_⟩
    · rw [readLastLoop_step _ _ cursor size hs acc hc]
      rw [show fileReadAt content (cursor - nextSize size cursor) (nextSize size cursor) =
        some chars from hread]
      dsimp only
      rw [if_pos (show 0 < scanChunk chars (chars ++ acc).length from hpos)]
      rw [hacc1]
    · obtain ⟨j, hj, hjlt, hterm, hnterm⟩ :=
        scanChunk_pos chars (chars ++ acc).length
          (show 0 < scanChunk chars (chars ++ acc).length from hpos)
      have hlen : chars.length ≤ content.length - (cursor - nextSize size cursor) := by
        rw [hchars, List.length_take, List.length_drop]
        omega
      right
      rw [hj]
      have hjc : cursor - nextSize size cursor + j < content.length := by omega
      refine ⟨by omega, by omega, ?_, ?_⟩
      · have hg := getD_drop_take content (cursor - nextSize size cursor) (nextSize size cursor) j
          (by rw [← hchars]; omega) ' '
        rw [← hchars] at hg
        rw [show cursor - nextSize size cursor + (j + 1) - 1 =
          cursor - nextSize size cursor + j by omega]
        rw [← hg]
        exact hterm
      · have hg := getD_drop_take content (cursor - nextSize size cursor) (nextSize size cursor)
          (j + 1) (by rw [← hchars]; omega) ' '
        rw [← hchars] at hg
        rw [show cursor - nextSize size cursor + (j + 1) = cursor - nextSize size cursor + (j + 1)
          from rfl, ← hg]
        exact hnterm
  | case4 cursor size hs acc hc size3 cursor1 chars hread acc1 pos hpos hcd =>
    cases hcd
  | case5 cursor size hs acc hc size3 cursor1 chars hread acc1 pos hpos hcd ih =>
    intro hacc hle
    have hs3 : nextSize size cursor ≤ cursor := by
      simp only [nextSize]
      split_ifs <;> omega
    have hchars : chars =
        (content.drop (cursor - nextSize size cursor)).take (nextSize size cursor) := by
      have h2 := hread
      simp only [fileReadAt, Option.some_inj] at h2
      exact h2.symm
    have hacc1 : chars ++ acc = content.drop (cursor - nextSize size cursor) := by
      have h2 := slice_append content (cursor - nextSize size cursor) (nextSize size cursor)
      rw [Nat.sub_add_cancel hs3] at h2
      rw [hchars, hacc]
      exact h2
    obtain ⟨c1, pos2, hres, hclean⟩ := ih hacc1 (by omega)
    refine ⟨c1, pos2, ?_, hclean⟩
    rw [readLastLoop_step _ _ cursor size hs acc hc]
    rw [show fileReadAt content (cursor - nextSize size cursor) (nextSize size cursor) =
      some chars from hread]
    dsimp only
    rw [if_neg (show ¬ 0 < scanChunk chars (chars ++ acc).length from hpos), if_neg (by simp)]
    exact hres

theorem readLastLines_clean (content : List Char) :
    ∃ p, cleanCut content p ∧
      (readLastLines false (fileReadAt content) content.length).1 =
        (splitNl (replCrLf (content.drop p))).map String.mk := by
  obtain ⟨c1, pos, hres, hclean⟩ := readLastLoop_result content content.length 256
    (by norm_num) [] (List.drop_length content).symm (le_refl _)
  refine ⟨c1 + pos, hclean, ?_⟩
  unfold readLastLines
  rw [hres]
  dsimp only
  rw [List.drop_drop]

theorem bufioLinesGo_cons (acc : List Char) (c : Char) (rest : List Char) :
    bufioLinesGo acc (c :: rest) =
      if c = '\n' then String.mk (stripCr acc) :: bufioLinesGo [] rest
      else bufioLinesGo (acc ++ [c]) rest := rfl

theorem bufioGo_no_nl : ∀ (cs acc : List Char), '\n' ∉ cs →
    bufioLinesGo acc cs = if acc ++ cs = [] then [] else [String.mk (acc ++ cs)] := by
  intro cs
  induction cs with
  | nil =>
    intro acc h
    show (if acc.isEmpty then [] else [String.mk acc]) = _
    rw [List.append_nil]
    rcases acc with _ | ⟨c, acc⟩ <;> simp
  | cons c cs ih =>
    intro acc h
    have hc : c ≠ '\n' := by
      intro hh
      exact h (hh ▸ List.mem_cons_self c cs)
    rw [bufioLinesGo_cons, if_neg hc, ih (acc ++ [c]) (fun hm => h (List.mem_cons_of_mem _ hm))]
    rw [List.append_assoc, List.singleton_append]

theorem bufioGo_first_nl : ∀ (a : List Char), '\n' ∉ a → ∀ (acc t : List Char),
    bufioLinesGo acc (a ++ '\n' :: t) =
      String.mk (stripCr (acc ++ a)) :: bufioLinesGo [] t := by
  intro a
  induction a with
  | nil =>
    intro _ acc t
    rw [List.nil_append, bufioLinesGo_cons, if_pos rfl, List.append_nil]
  | cons c a ih =>
    intro h acc t
    have hc : c ≠ '\n' := by
      intro hh
      exact h (hh ▸ List.mem_cons_self c a)
    rw [List.cons_append, bufioLinesGo_cons, if_neg hc,
      ih (fun hm => h (List.mem_cons_of_mem _ hm)) (acc ++ [c]) t,
      List.append_assoc, List.singleton_append]

theorem splitNl_no_nl : ∀ a : List Char, '\n' ∉ a → splitNl a = [a] := by
  intro a
  induction a with
  | nil => intro _; rfl
  | cons c a ih =>
    intro h
    have hc : c ≠ '\n' := by
      intro hh
      exact h (hh ▸ List.mem_cons_self c a)
    rw [splitNl_cons, if_neg hc, ih (fun hm => h (List.mem_cons_of_mem _ hm))]

theorem splitNl_first : ∀ a : List Char, '\n' ∉ a → ∀ t,
    splitNl (a ++ '\n' :: t) = a :: splitNl t := by
  intro a
  induction a with
  | nil =>
    intro _ t
    rw [List.nil_append, splitNl_cons, if_pos rfl]
  | cons c a ih =>
    intro h t
    have hc : c ≠ '\n' := by
      intro hh
      exact h (hh ▸ List.mem_cons_self c a)
    rw [List.cons_append, splitNl_cons, if_neg hc,
      ih (fun hm => h (List.mem_cons_of_mem _ hm)) t]

theorem noLoneCr_append_right : ∀ (x y : List Char), noLoneCr (x ++ y) = true →
    noLoneCr y = true := by
  intro x
  induction x with
  | nil => intro y h; exact h
  | cons c x ih =>
    intro y h
    exact ih y (noLoneCr_cons h).2

theorem no_cr_of_noLoneCr_no_nl : ∀ a : List Char, noLoneCr a = true → '\n' ∉ a →
    '\r' ∉ a := by
  intro a
  induction a with
  | nil => intro _ _; simp
  | cons c a ih =>
    intro hcr hnl
    obtain ⟨h1, h2⟩ := noLoneCr_cons hcr
    intro hmem
    rcases List.mem_cons.mp hmem with hm | hm
    · have := h1 hm.symm
      rcases a with _ | ⟨d, a⟩
      · simp at this
      · simp only [List.head?_cons, Option.some_inj] at this
        exact hnl (this ▸ List.mem_cons_of_mem _ (List.mem_cons_self d a))
    · exact ih h2 (fun hm2 => hnl (List.mem_cons_of_mem _ hm2)) hm

theorem stripCr_no_cr (a : List Char) (h : '\r' ∉ a) : stripCr a = a := by
  unfold stripCr
  rcases hl : a.getLast? with _ | c
  · rfl
  · split
    · rename_i heq
      exact absurd (List.mem_of_getLast?_eq_some (heq ▸ hl)) h
    · rfl

theorem suffix_filterMap {l1 l2 : List String} (f : String → Option LogMessage)
    (h : l1 <:+ l2) : l1.filterMap f <:+ l2.filterMap f := by
  obtain ⟨t, ht⟩ := h
  exact ⟨t.filterMap f, by rw [← ht, List.filterMap_append]⟩

theorem filterMap_splitNl_eq_bufioLines : ∀ (n : Nat) (content : List Char),
    content.length ≤ n → noLoneCr content = true →
    ((splitNl content).map (fun l => String.mk (stripCr l))).filterMap parseLogItem =
      (bufioLines content).filterMap parseLogItem := by
  intro n
  induction n with
  | zero =>
    intro content hlen hcr
    have h0 : content = [] := List.eq_nil_of_length_eq_zero (Nat.le_zero.mp hlen)
    subst h0
    decide
  | succ n ih =>
    intro content hlen hcr
    by_cases hnl : '\n' ∈ content
    · have hsplit : content.takeWhile (fun c => c != '\n') ++
          content.dropWhile (fun c => c != '\n') = content :=
        List.takeWhile_append_dropWhile _ _
      have hdnn : content.dropWhile (fun c => c != '\n') ≠ [] := by
        intro hempty
        have hall := List.dropWhile_eq_nil_iff.mp hempty '\n' hnl
        simp at hall
      obtain ⟨c0, t, hct⟩ := List.exists_cons_of_ne_nil hdnn
      have hc0 : c0 = '\n' := by
        have hw := List.head?_dropWhile_not (fun c => c != '\n') content
        rw [hct] at hw
        simp only [List.head?_cons] at hw
        simpa using hw
      subst hc0
      have hcontent : content = content.takeWhile (fun c => c != '\n') ++ '\n' :: t := by
        rw [← hct]
        exact hsplit.symm
      have hann : '\n' ∉ content.takeWhile (fun c => c != '\n') := by
        intro hm
        have := List.mem_takeWhile_imp hm
        simp at this
      have htlen : t.length ≤ n := by
        have := congrArg List.length hcontent
        simp only [List.length_append, List.length_cons] at this
        omega
      have htcr : noLoneCr t = true := by
        have h1 := noLoneCr_append_right _ _ (hcontent ▸ hcr)
        exact (noLoneCr_cons h1).2
      rw [hcontent, splitNl_first _ hann t]
      show ((String.mk (stripCr (content.takeWhile (fun c => c != '\n')))) ::
          (splitNl t).map (fun l => String.mk (stripCr l))).filterMap parseLogItem = _
      rw [show bufioLines (content.takeWhile (fun c => c != '\n') ++ '\n' :: t) =
          String.mk (stripCr (content.takeWhile (fun c => c != '\n'))) :: bufioLines t from by
        unfold bufioLines
        rw [bufioGo_first_nl _ hann [] t, List.nil_append]]
      rw [List.filterMap_cons, List.filterMap_cons]
      rcases parseLogItem (String.mk (stripCr (content.takeWhile (fun c => c != '\n')))) with
        _ | v
      · exact ih t htlen htcr
      · rw [ih t htlen htcr]
    · have hnr : '\r' ∉ content := no_cr_of_noLoneCr_no_nl content hcr hnl
      rw [splitNl_no_nl content hnl]
      show (String.mk (stripCr content) :: []).filterMap parseLogItem = _
      rw [stripCr_no_cr content hnr]
      unfold bufioLines
      rw [bufioGo_no_nl content [] hnl, List.nil_append]
      rcases content with _ | ⟨c, cs⟩
      · decide
      · rw [if_neg (by simp)]

/-- Claim C6 (amended): for a file in which every carriage return is part of
a CRLF pair, the entries obtained by parsing the lines readLastLines returns
from the file size are exactly the final N entries (N their count — a
suffix) of the entries obtained by forward-reading the whole file with
readLine and parsing every line. -/
theorem c6_backward_tail_entries (content : List Char)
    (hcr : noLoneCr content = true)
    (hparse : ∀ l ∈ bufioLines content, (parseLogItem l).isSome = true) :
    ((readLastLines false (fileReadAt content) content.length).1.filterMap parseLogItem) <:+
      ((bufioLines content).filterMap parseLogItem) := by
  obtain ⟨p, hclean, heq⟩ := readLastLines_clean content
  rw [heq]
  have hcrp : noLoneCr (content.drop p) = true := noLoneCr_drop hcr p
  rw [splitNl_replCrLf _ hcrp, List.map_map]
  have hsuffix : splitNl (content.drop p) <:+ splitNl content := by
    rcases hclean with h0 | ⟨hp0, hplen, hterm, hnterm⟩
    · subst h0
      rw [List.drop_zero]
    · have hp1 : p - 1 < content.length := by omega
      have hdrop : content.drop (p - 1) = content[p - 1] :: content.drop p := by
        have hd := List.drop_eq_getElem_cons (l := content) hp1
        rw [show p - 1 + 1 = p from by omega] at hd
        exact hd
      have hgd : content.getD (p - 1) ' ' = content[p - 1] := List.getD_eq_getElem content ' ' hp1
      have hch : content[p - 1] = '\n' := by
        rw [hgd] at hterm
        unfold isLineTerm at hterm
        rw [Bool.or_eq_true] at hterm
        rcases hterm with ht | ht
        · simpa using ht
        · exfalso
          have hcr1 : content[p - 1] = '\r' := by simpa using ht
          have hnc := noLoneCr_drop hcr (p - 1)
          rw [hdrop] at hnc
          have hhead := (noLoneCr_cons hnc).1 hcr1
          have hp2 : (content.drop p).head? = some content[p] := by
            rw [List.head?_drop]
            exact List.getElem?_eq_getElem hplen
          rw [hp2] at hhead
          have hpn : content[p] = '\n' := by simpa using hhead
          rw [show content.getD p ' ' = content[p] from List.getD_eq_getElem content ' ' hplen, hpn]
            at hnterm
          simp [isLineTerm] at hnterm
      have hdecomp : content = content.take (p - 1) ++ '\n' :: content.drop p := by
        conv_lhs => rw [← List.take_append_drop (p - 1) content]
        rw [hdrop, hch]
      conv_rhs => rw [hdecomp]
      exact (splitNl_tail_suffix _ _).trans (List.tail_suffix _)
  have h1 := List.IsSuffix.map (fun l => String.mk (stripCr l)) hsuffix
  have h2 := suffix_filterMap parseLogItem h1
  rw [filterMap_splitNl_eq_bufioLines content.length content (le_refl _) hcr] at h2
  exact h2

set_option maxRecDepth 100000 in
/-- Claim C6, counterexample: a file whose first line contains a lone
carriage return inside a parseable line.  Every forward line parses, yet the
backward scan treats the CR as a line boundary and returns a tail whose
parsed entries are not the final entries of the forward parse: the entry at
06:19:14 replaces the forward entry at 06:19:13. -/
theorem c6_lone_cr_counterexample :
    (∀ l ∈ bufioLines ("[2019/08/26 06:19:13.011 -04:00] [INFO] a\r[2019/08/26 06:19:14.000 -04:00] [INFO] b\n[2019/08/26 06:19:15.000 -04:00] [INFO] c").data,
      (parseLogItem l).isSome = true) ∧
    (let T := (readLastLines false
        (fileReadAt ("[2019/08/26 06:19:13.011 -04:00] [INFO] a\r[2019/08/26 06:19:14.000 -04:00] [INFO] b\n[2019/08/26 06:19:15.000 -04:00] [INFO] c").data)
        ("[2019/08/26 06:19:13.011 -04:00] [INFO] a\r[2019/08/26 06:19:14.000 -04:00] [INFO] b\n[2019/08/26 06:19:15.000 -04:00] [INFO] c").data.length).1.filterMap
        parseLogItem
     let E := (bufioLines ("[2019/08/26 06:19:13.011 -04:00] [INFO] a\r[2019/08/26 06:19:14.000 -04:00] [INFO] b\n[2019/08/26 06:19:15.000 -04:00] [INFO] c").data).filterMap
        parseLogItem
     T ≠ E.drop (E.length - T.length) ∧ ¬ T <:+ E) := by
  constructor
  · decide
  · have hT : readLastLines false
        (fileReadAt ("[2019/08/26 06:19:13.011 -04:00] [INFO] a\r[2019/08/26 06:19:14.000 -04:00] [INFO] b\n[2019/08/26 06:19:15.000 -04:00] [INFO] c").data)
        ("[2019/08/26 06:19:13.011 -04:00] [INFO] a\r[2019/08/26 06:19:14.000 -04:00] [INFO] b\n[2019/08/26 06:19:15.000 -04:00] [INFO] c").data.length =
        (["[2019/08/26 06:19:14.000 -04:00] [INFO] b",
          "[2019/08/26 06:19:15.000 -04:00] [INFO] c"], 83, none) := by
      unfold readLastLines
      rw [readLastLoop_step _ _ _ _ _ _ (by decide)]
      simp only [fileReadAt]
      decide
    dsimp only
    rw [hT]
    constructor
    · decide
    · decide

/-- Claim C6, witness: the amended theorem applied to a two-line file with a
CRLF and an LF terminator, all lines parseable. -/
theorem c6_backward_tail_entries_witness :
    ((readLastLines false
        (fileReadAt ("[2019/08/26 06:19:13.011 -04:00] [INFO] a\r\n[2019/08/26 06:19:14.000 -04:00] [INFO] b\n").data)
        ("[2019/08/26 06:19:13.011 -04:00] [INFO] a\r\n[2019/08/26 06:19:14.000 -04:00] [INFO] b\n").data.length).1.filterMap
        parseLogItem) <:+
      ((bufioLines ("[2019/08/26 06:19:13.011 -04:00] [INFO] a\r\n[2019/08/26 06:19:14.000 -04:00] [INFO] b\n").data).filterMap
        parseLogItem) :=
  c6_backward_tail_entries
    ("[2019/08/26 06:19:13.011 -04:00] [INFO] a\r\n[2019/08/26 06:19:14.000 -04:00] [INFO] b\n").data
    (by decide) (by decide)

theorem readLastLoop_error_none (readAt : Nat → Nat → Option (List Char)) :
    ∀ (cursor size : Nat) (hs : 0 < size) (acc : List Char) (e : Option GoErr),
      (readLastLoop readAt false cursor size hs acc).1 = .error e → e = none := by
  intro cursor size hs acc
  induction cursor, size, hs, acc using readLastLoop.induct readAt false with
  | case1 size hs acc =>
    intro e h
    rw [readLastLoop_zero] at h
    cases h
  | case2 cursor size hs acc hc size3 cursor1 hfail =>
    intro e h
    rw [readLastLoop_step readAt false cursor size hs acc hc] at h
    rw [show readAt (cursor - nextSize size cursor) (nextSize size cursor) = none from hfail] at h
    simp only [Bool.false_eq_true, if_false, Except.error.injEq] at h
    exact h.symm
  | case3 cursor size hs acc hc size3 cursor1 chars hread acc1 pos hpos =>
    intro e h
    rw [readLastLoop_step readAt false cursor size hs acc hc] at h
    rw [show readAt (cursor - nextSize size cursor) (nextSize size cursor) = some chars
      from hread] at h
    dsimp only at h
    rw [if_pos (show 0 < scanChunk chars (chars ++ acc).length from hpos)] at h
    cases h
  | case4 cursor size hs acc hc size3 cursor1 chars hread acc1 pos hpos hcd =>
    cases hcd
  | case5 cursor size hs acc hc size3 cursor1 chars hread acc1 pos hpos hcd ih =>
    intro e h
    rw [readLastLoop_step readAt false cursor size hs acc hc] at h
    rw [show readAt (cursor - nextSize size cursor) (nextSize size cursor) = some chars
      from hread] at h
    dsimp only at h
    rw [if_neg (show ¬ 0 < scanChunk chars (chars ++ acc).length from hpos),
      if_neg (by simp)] at h
    exact ih e h

theorem readLastLines_err_none (readAt : Nat → Nat → Option (List Char)) (endCursor : Nat) :
    (readLastLines false readAt endCursor).2.2 = none := by
  unfold readLastLines
  rcases hr : (readLastLoop readAt false endCursor 256 (by norm_num) []).1 with e | ⟨lines, pos⟩
  · have he := readLastLoop_error_none readAt endCursor 256 (by norm_num) [] e hr
    subst he
    rfl
  · rfl

theorem readLastValidLogLoop_break (readAt : Nat → Nat → Option (List Char))
    (fileSize tried tryLines : Nat)
    (h : readLastLines false readAt fileSize = ([], 0, none)) :
    readLastValidLogLoop false readAt fileSize tried tryLines = .error .notValidLog := by
  rw [readLastValidLogLoop.eq_def]
  simp only [h]
  simp

/-- Claim C9: with an uncancelled context, a Seek or Read failure in any
round of the backward scan makes readLastLines return nil lines, zero bytes
and a nil error; readLastValidLog, at any of its retry states, takes that
zero byte count for start-of-file and gives up with "not a valid log file"
(never surfacing a stream or I/O error), and the resolver's walkFn then
silently skips the file.  The first two conjuncts quantify over arbitrary
loop states, so they cover a failure in any round, not just the first. -/
theorem c9_read_failure_silent_skip (readAt : Nat → Nat → Option (List Char)) :
    (∀ (cursor size : Nat) (hs : 0 < size) (acc : List Char) (hc : ¬ cursor = 0),
      readAt (cursor - nextSize size cursor) (nextSize size cursor) = none →
      (readLastLoop readAt false cursor size hs acc).1 = .error none) ∧
    (∀ (cursor size : Nat) (hs : 0 < size) (acc : List Char) (hc : ¬ cursor = 0)
       (chars : List Char),
      readAt (cursor - nextSize size cursor) (nextSize size cursor) = some chars →
      scanChunk chars (chars ++ acc).length = 0 →
      (readLastLoop readAt false cursor size hs acc).1 =
        (readLastLoop readAt false (cursor - nextSize size cursor) (nextSize size cursor)
          (nextSize_pos hs (Nat.pos_of_ne_zero hc)) (chars ++ acc)).1) ∧
    (∀ (endCursor : Nat) (e : Option GoErr),
      (readLastLoop readAt false endCursor 256 (by norm_num) []).1 = .error e →
      e = none ∧ readLastLines false readAt endCursor = ([], 0, none)) ∧
    (∀ (fileSize tried tryLines : Nat),
      readLastLines false readAt fileSize = ([], 0, none) →
      readLastValidLogLoop false readAt fileSize tried tryLines = .error .notValidLog) ∧
    (∀ (fileSize tried tryLines : Nat) (e : GoErr),
      readLastValidLogLoop false readAt fileSize tried tryLines = .error e →
      e = .notValidLog) ∧
    (∀ (readerLines : List String) (fileSize : Nat) (x y : Int),
      readLastValidLog false readAt fileSize 10 = .error .notValidLog →
      walkFnDecision false readerLines readAt fileSize x y = none) := by
  refine ⟨?_, ?_, ?_, ?_, ?_, ?_⟩
  · intro cursor size hs acc hc hfail
    rw [readLastLoop_step readAt false cursor size hs acc hc, hfail]
    simp
  · intro cursor size hs acc hc chars hread hscan
    rw [readLastLoop_step readAt false cursor size hs acc hc, hread]
    dsimp only
    rw [hscan, if_neg (by omega), if_neg (by simp)]
  · intro endCursor e h
    have he := readLastLoop_error_none readAt endCursor 256 (by norm_num) [] e h
    subst he
    refine ⟨rfl, ?_⟩
    unfold readLastLines
    rw [h]
  · intro fileSize tried tryLines h
    exact readLastValidLogLoop_break readAt fileSize tried tryLines h
  · intro fileSize tried tryLines
    induction fileSize, tried, tryLines using readLastValidLogLoop.induct false readAt with
    | case1 endCursor tried tryLines r e2 hr =>
      intro e h
      have hn := readLastLines_err_none readAt endCursor
      rw [show (readLastLines false readAt endCursor).2.2 = some e2 from hr] at hn
      cases hn
    | case2 endCursor tried tryLines r hr hz =>
      intro e h
      rw [readLastValidLogLoop.eq_def] at h
      dsimp only at h
      rw [show (readLastLines false readAt endCursor).2.2 = none from hr] at h
      rw [dif_pos (show (readLastLines false readAt endCursor).2.1 = 0 from hz)] at h
      cases h
      rfl
    | case3 endCursor tried tryLines r hr hz item hitem =>
      intro e h
      rw [readLastValidLogLoop.eq_def] at h
      dsimp only at h
      rw [show (readLastLines false readAt endCursor).2.2 = none from hr] at h
      rw [dif_neg (show ¬ (readLastLines false readAt endCursor).2.1 = 0 from hz)] at h
      rw [show lastParsedBackward (readLastLines false readAt endCursor).1 = some item
        from hitem] at h
      cases h
    | case4 endCursor tried tryLines r hr hz hnone hcap =>
      intro e h
      rw [readLastValidLogLoop.eq_def] at h
      dsimp only at h
      rw [show (readLastLines false readAt endCursor).2.2 = none from hr] at h
      rw [dif_neg (show ¬ (readLastLines false readAt endCursor).2.1 = 0 from hz)] at h
      rw [show lastParsedBackward (readLastLines false readAt endCursor).1 = none
        from hnone] at h
      rw [if_pos (show tryLines ≤ tried + (readLastLines false readAt endCursor).1.length
        from hcap)] at h
      cases h
      rfl
    | case5 endCursor tried tryLines r hr hz hnone hcap ih =>
      intro e h
      rw [readLastValidLogLoop.eq_def] at h
      dsimp only at h
      rw [show (readLastLines false readAt endCursor).2.2 = none from hr] at h
      rw [dif_neg (show ¬ (readLastLines false readAt endCursor).2.1 = 0 from hz)] at h
      rw [show lastParsedBackward (readLastLines false readAt endCursor).1 = none
        from hnone] at h
      rw [if_neg (show ¬ tryLines ≤ tried + (readLastLines false readAt endCursor).1.length
        from hcap)] at h
      exact ih e h
  · intro readerLines fileSize x y hlast
    unfold walkFnDecision
    rcases readFirstValidLog false readerLines 10 with e1 | first
    · rfl
    · rw [hlast]

set_option maxRecDepth 400000 in
/-- Claim C9, witness: a 1000-byte file whose first 512-byte chunk reads
fine but contains no line boundary, and whose second-round read fails; the
failure in the second round is reported as nil lines, zero bytes and a nil
error, readLastValidLog gives up with "not a valid log file", and walkFn
skips the file. -/
theorem c9_read_failure_silent_skip_witness :
    readLastLines false
      (fun off _ => if off = 488 then some (List.replicate 512 'a') else none) 1000 =
      ([], 0, none) ∧
    readLastValidLog false
      (fun off _ => if off = 488 then some (List.replicate 512 'a') else none) 1000 10 =
      .error .notValidLog ∧
    walkFnDecision false ["[2019/08/26 06:19:13.011 -04:00] [INFO] hello"]
      (fun off _ => if off = 488 then some (List.replicate 512 'a') else none) 1000
      0 2000000000000 = none := by
  have thm := c9_read_failure_silent_skip
    (fun off _ => if off = 488 then some (List.replicate 512 'a') else none)
  have h2 := thm.2.1 1000 256 (by norm_num) [] (by decide) (List.replicate 512 'a')
    (by decide) (by decide)
  have h1 := thm.1 (1000 - nextSize 256 1000) (nextSize 256 1000)
    (nextSize_pos (by norm_num) (by norm_num)) (List.replicate 512 'a' ++ [])
    (by decide) (by decide)
  have herr : (readLastLoop
      (fun off _ => if off = 488 then some (List.replicate 512 'a') else none)
      false 1000 256 (by norm_num) []).1 = .error none := h2.trans h1
  obtain ⟨-, hRLL⟩ := thm.2.2.1 1000 none herr
  have h4 := thm.2.2.2.1 1000 0 10 hRLL
  exact ⟨hRLL, h4, thm.2.2.2.2.2 ["[2019/08/26 06:19:13.011 -04:00] [INFO] hello"]
    1000 0 2000000000000 h4⟩
